import Mathlib

/-!
# A verification development for the BurntSushi/toml Go library

This file gives a shallow embedding, in Lean 4, of the parts of the
BurntSushi/toml TOML processor that the specification's claims are about,
together with theorems settling each claim.

Conventions used throughout:

* Go strings are embedded as `List Char` (one entry per rune) or, where the
  code works on raw bytes, as `List Nat` (one entry per byte, each < 256).
* Go `int64` values are embedded as `Int` with explicit range conditions.
* Fallible Go code (functions that `panic` a `ParseError` caught by
  `parse`'s `recover`) is embedded with `Except String` / explicit result
  types carrying the error message; `p.bug` calls (which panic with a
  plain string and therefore crash the program) are embedded as a
  distinguished `bug` result.
* Definitions are translated from the Go source.  A handful of small
  helpers live in files of the repository that are not part of this
  snapshot (the v1.0-era lexer, `Key.String`); those definitions carry a
  doc comment starting with `Modelled from the spec:` and follow the
  specification's wording.
-/

/-! ## Byte-level prelude of `parse` (BOM handling and UTF-16 detection)

Embeds the first lines of `parse` (parse source, `func parse`):

```go
if strings.HasPrefix(data, "\xff\xfe") || strings.HasPrefix(data, "\xfe\xff") {
    data = data[2:]
}
ex := 6
if len(data) < 6 { ex = len(data) }
if strings.ContainsRune(data[:ex], 0) {
    return nil, errors.New("files cannot contain NULL bytes; ...")
}
```
-/

/-- The byte-order-mark handling at the top of `parse`: drop the first two
bytes when the input starts with `0xff 0xfe` or `0xfe 0xff`.  No other
prefix (in particular not the UTF-8 BOM `0xef 0xbb 0xbf`) is touched. -/
def stripBOM : List Nat → List Nat
  | 0xff :: 0xfe :: rest => rest
  | 0xfe :: 0xff :: rest => rest
  | data => data

/-- The exact message produced when a NUL byte is found among the first six
bytes of the (BOM-stripped) input. -/
def utf16ErrMsg : String :=
  "files cannot contain NULL bytes; probably using UTF-16; TOML files must be UTF-8"

/-- The early-return behaviour of `parse` before any lexing happens:
`some msg` when `parse` returns the UTF-16 error, `none` when control
reaches the lexer.  This embeds `parse`'s prelude verbatim: the NUL scan
looks at `data[:6]` (or all of `data` when shorter) after BOM stripping. -/
def parseEarly (data : List Nat) : Option String :=
  let d := stripBOM data
  if 0 ∈ d.take 6 then some utf16ErrMsg else none

/-- The bytes of `a = "b"` encoded in UTF-16-LE (from `TestUTF16` in the
decode tests), used as a concrete witness input. -/
def utf16SampleBytes : List Nat :=
  [0x61, 0x00, 0x20, 0x00, 0x3d, 0x00, 0x20, 0x00, 0x22, 0x00, 0x62, 0x00,
   0x22, 0x00, 0x0a, 0x00]

/-- The bytes of `a = "b"` prefixed with the UTF-8 byte order mark
`0xef 0xbb 0xbf` (from `TestDecodeBOM` in the decode tests). -/
def utf8BomSampleBytes : List Nat :=
  [0xef, 0xbb, 0xbf, 0x61, 0x20, 0x3d, 0x20, 0x22, 0x62, 0x22]

/-! ## Encoder newline discipline (`Encoder.newline` / `Encoder.wf`)

Embeds the writer state of `Encoder` (encode source): the fields
`hasWritten` and `wroteNL` and the two primitives that touch them.

```go
func (enc *Encoder) newline(n int) {
    if !enc.hasWritten { return }
    w := n - enc.wroteNL
    if w <= 0 { return }
    enc.wroteNL += w
    enc.w.Write(bytes.Repeat([]byte("\n"), w))
}

func (enc *Encoder) wf(format string, v ...interface{}) {
    fmt.Fprintf(enc.w, format, v...)
    enc.wroteNL = 0
    enc.hasWritten = true
}
```
The output writer is embedded as the string written so far. -/

/-- Writer state of the encoder: the bytes written so far plus the
`hasWritten` / `wroteNL` bookkeeping fields. -/
structure EncWriter where
  out : List Char
  hasWritten : Bool
  wroteNL : Int
  deriving Repr, DecidableEq

/-- Fresh encoder writer: nothing written yet. -/
def EncWriter.init : EncWriter := ⟨[], false, 0⟩

/-- `Encoder.newline(n)`: ensure `n` newlines here, except that nothing at
all is written while `hasWritten` is still false. -/
def EncWriter.newline (st : EncWriter) (n : Int) : EncWriter :=
  if !st.hasWritten then st
  else
    let w := n - st.wroteNL
    if w ≤ 0 then st
    else
      { out := st.out ++ List.replicate w.toNat '\n'
        hasWritten := st.hasWritten
        wroteNL := st.wroteNL + w }

/-- `Encoder.wf`: append formatted text, reset `wroteNL`, set `hasWritten`.
The already-formatted text is taken as the argument. -/
def EncWriter.wf (st : EncWriter) (s : List Char) : EncWriter :=
  { out := st.out ++ s, hasWritten := true, wroteNL := 0 }

/-- One write operation performed by the encoder: every write in
`encode.go` goes through either `wf` or `newline`. -/
inductive EncOp where
  | newline (n : Int)
  | wf (s : List Char)
  deriving Repr, DecidableEq

/-- Run a sequence of encoder write operations from a given writer state. -/
def EncWriter.run (st : EncWriter) : List EncOp → EncWriter
  | [] => st
  | EncOp.newline n :: ops => (st.newline n).run ops
  | EncOp.wf s :: ops => (st.wf s).run ops

/-- Every `wf` payload in the list is nonempty and does not start with a
newline character.  This holds of every `wf` call site in `encode.go`
(each writes at least one literal character, none of them `\n`). -/
def goodOps (ops : List EncOp) : Prop :=
  ∀ s, EncOp.wf s ∈ ops → s ≠ [] ∧ s.head? ≠ some '\n'

/-- Invariant tying `hasWritten` to the output: before the first `wf`
nothing has been written, and once something has been written the output
is nonempty and does not start with a newline. -/
def EncInv (st : EncWriter) : Prop :=
  (st.hasWritten = false → st.out = []) ∧
  (st.hasWritten = true → st.out ≠ [] ∧ st.out.head? ≠ some '\n')

theorem encInv_init : EncInv EncWriter.init := by
  constructor
  · intro _; rfl
  · intro h; simp [EncWriter.init] at h

theorem encInv_newline (st : EncWriter) (n : Int) (h : EncInv st) :
    EncInv (st.newline n) := by
  rcases hw : st.hasWritten with _ | _
  · simpa [EncWriter.newline, hw] using h
  · rcases h.2 hw with ⟨hne, hhd⟩
    by_cases hle : n - st.wroteNL ≤ 0
    · simpa [EncWriter.newline, hw, hle] using h
    · simp only [EncWriter.newline, hw, hle, Bool.not_true, Bool.false_eq_true,
        if_false, if_neg hle]
      refine ⟨by intro habs; simp at habs, fun _ => ⟨by simp [hne], ?_⟩⟩
      rcases hd : st.out with _ | ⟨c, cs⟩
      · exact absurd hd hne
      · rw [hd] at hhd; simpa using hhd

theorem encInv_wf (st : EncWriter) (s : List Char) (h : EncInv st)
    (hs : s ≠ [] ∧ s.head? ≠ some '\n') : EncInv (st.wf s) := by
  refine ⟨by intro habs; simp [EncWriter.wf] at habs, fun _ => ?_⟩
  rcases hw : st.hasWritten with _ | _
  · simp [EncWriter.wf, h.1 hw, hs.1, hs.2]
  · rcases h.2 hw with ⟨hne, hhd⟩
    rcases hd : st.out with _ | ⟨c, cs⟩
    · exact absurd hd hne
    · rw [hd] at hhd
      constructor
      · simp [EncWriter.wf, hd]
      · simpa [EncWriter.wf, hd] using hhd

theorem encInv_run (st : EncWriter) (ops : List EncOp) (h : EncInv st)
    (hops : goodOps ops) : EncInv (st.run ops) := by
  induction ops generalizing st with
  | nil => simpa [EncWriter.run] using h
  | cons op rest ih =>
    cases op with
    | newline n =>
      exact ih (st.newline n) (encInv_newline st n h)
        (fun s hs => hops s (by simp [hs]))
    | wf s =>
      exact ih (st.wf s) (encInv_wf st s h (hops s (by simp)))
        (fun t ht => hops t (by simp [ht]))

/-- Claim C5: for every input whose first six bytes (after byte-order-mark
handling) contain a NUL byte, `parse` returns an error instead of a
document, and the error message is exactly "files cannot contain NULL
bytes; probably using UTF-16; TOML files must be UTF-8". -/
theorem claim_C5_utf16_detection (data : List Nat)
    (h : 0 ∈ (stripBOM data).take 6) :
    parseEarly data = some utf16ErrMsg := by
  unfold parseEarly
  simp [h]

/-- Witness for C5 at the UTF-16-LE sample input from `TestUTF16`. -/
theorem claim_C5_witness :
    0 ∈ (stripBOM utf16SampleBytes).take 6 ∧
      parseEarly utf16SampleBytes = some utf16ErrMsg :=
  ⟨by decide, claim_C5_utf16_detection utf16SampleBytes (by decide)⟩

/-- Claim C6 (code_bug evidence): `parse` strips the UTF-16-LE and
UTF-16-BE byte order marks but leaves a UTF-8 byte order mark in place,
so an input starting with the UTF-8 BOM does not lex the same as the
input without it, contradicting the claim (and `TestDecodeBOM`, which
expects `"\xef\xbb\xbf" ++ "a = \"b\""` to decode successfully). -/
theorem claim_C6_bom_not_stripped :
    stripBOM utf8BomSampleBytes = utf8BomSampleBytes ∧
      utf8BomSampleBytes ≠ utf8BomSampleBytes.drop 3 ∧
      stripBOM (0xff :: 0xfe :: utf8BomSampleBytes.drop 3) =
        utf8BomSampleBytes.drop 3 ∧
      stripBOM (0xfe :: 0xff :: utf8BomSampleBytes.drop 3) =
        utf8BomSampleBytes.drop 3 := by
  refine ⟨rfl, by decide, rfl, rfl⟩

/-- Claim C10: `Encoder.newline` writes nothing until the encoder has
written some other output, and consequently any sequence of encoder
writes (each `wf` payload being nonempty and not newline-initial, as at
every call site in `encode.go`) produces output that never begins with a
newline — even though table headers are preceded by `newline 2`. -/
theorem claim_C10_no_leading_newline :
    (∀ (st : EncWriter) (n : Int), st.hasWritten = false →
        st.newline n = st) ∧
      (∀ ops : List EncOp, goodOps ops →
        (EncWriter.init.run ops).out.head? ≠ some '\n') := by
  constructor
  · intro st n h
    simp [EncWriter.newline, h]
  · intro ops hops
    have h := encInv_run EncWriter.init ops encInv_init hops
    rcases hw : (EncWriter.init.run ops).hasWritten with _ | _
    · simp [h.1 hw]
    · exact (h.2 hw).2

/-- Witness for C10: the operation sequence of a top-level `eTable` call
on an empty encoder (`newline 2`, the header, `newline 1`) yields
`"[a]\n"`, which does not begin with a newline; and the initial
`newline 2` writes nothing. -/
theorem claim_C10_witness :
    (EncWriter.init.newline 2 = EncWriter.init) ∧
      (EncWriter.init.run
          [EncOp.newline 2, EncOp.wf ['[', 'a', ']'], EncOp.newline 1]).out.head? ≠
        some '\n' := by
  constructor
  · exact claim_C10_no_leading_newline.1 EncWriter.init 2 rfl
  · refine claim_C10_no_leading_newline.2 _ ?_
    intro s hs
    simp only [List.mem_cons, List.not_mem_nil, or_false] at hs
    rcases hs with h | h | h
    · exact EncOp.noConfusion h
    · injection h with h; subst h; exact ⟨by decide, by decide⟩
    · exact EncOp.noConfusion h

/-! ## Float rendering in the encoder (`eElement` float case, `floatAddDecimal`)

Embeds the `reflect.Float32, reflect.Float64` branch of `Encoder.eElement`
(encode source):

```go
f := rv.Float()
if math.IsNaN(f) {
    enc.wf("nan")
} else if math.IsInf(f, 0) {
    enc.wf("%cinf", map[bool]byte{true: '-', false: '+'}[math.Signbit(f)])
} else {
    if asFloat(typ).Exponent {
        enc.wf(strconv.FormatFloat(f, 'e', -1, n))
    } else {
        enc.wf(floatAddDecimal(strconv.FormatFloat(f, 'f', -1, n)))
    }
}
```

IEEE-754 arithmetic itself is not embedded; a float64 is embedded by its
classification (NaN with sign bit, infinity with sign bit, or finite) and,
for finite values, by the decimal digit string that
`strconv.FormatFloat(f, 'f', -1, n)` produces for it.  By the Go library's
contract that string is `-`? digits [`.` digits] with at least one digit
before any point and, when a point is present, at least one after it. -/

/-- `isDigit` from the lexer (Modelled from the spec: the lexer file of
this snapshot era is not part of src; the character class is ASCII
`0`-`9`). -/
def isDigit (c : Char) : Bool := '0' ≤ c && c ≤ '9'

/-- The decimal form `strconv.FormatFloat(f, 'f', -1, n)` produces for a
finite float: optional minus sign, a nonempty integer digit run, and an
optional fractional digit run (no `.` is printed when it is empty). -/
structure FloatRepr where
  neg : Bool
  intDigits : List Char
  fracDigits : List Char
  deriving Repr, DecidableEq

/-- Well-formedness of a `FloatRepr` per the Go library contract. -/
def FloatRepr.WF (r : FloatRepr) : Prop :=
  r.intDigits ≠ [] ∧ (∀ c ∈ r.intDigits, isDigit c) ∧
    (∀ c ∈ r.fracDigits, isDigit c)

/-- Render a `FloatRepr` the way `strconv.FormatFloat(f, 'f', -1, n)`
does. -/
def FloatRepr.formatF (r : FloatRepr) : List Char :=
  (if r.neg then ['-'] else []) ++ r.intDigits ++
    (if r.fracDigits = [] then [] else '.' :: r.fracDigits)

/-- Render a `FloatRepr` the way `strconv.FormatFloat(f, 'e', -1, n)`
does (Modelled from the spec of Go's strconv: `d.ddde±XX` built from the
significant digits; only its shape matters here, the exponent branch of
the claim is not otherwise analysed). -/
def FloatRepr.formatE (r : FloatRepr) : List Char :=
  let sig := (r.intDigits ++ r.fracDigits).dropWhile (fun c => c = '0')
  let expVal : Int :=
    (r.intDigits.dropWhile (fun c => c = '0')).length - 1 +
      (if r.intDigits.all (fun c => c = '0')
       then -(((r.fracDigits.takeWhile (fun c => c = '0')).length : Int))
       else 0)
  let mant :=
    match sig with
    | [] => ['0']
    | d :: ds => if ds = [] then [d] else d :: '.' :: ds
  let esign := if expVal < 0 then '-' else '+'
  let eabs := expVal.natAbs
  let edigits := Nat.toDigits 10 eabs
  let edigits := if eabs < 10 then '0' :: edigits else edigits
  (if r.neg then ['-'] else []) ++ mant ++ 'e' :: esign :: edigits

/-- A float64 as the encoder sees it: NaN (with its sign bit), an
infinity (with its sign bit), or a finite value given by its shortest
`'f'`-format decimal representation. -/
inductive GoFloat where
  | nan (signbit : Bool)
  | inf (signbit : Bool)
  | finite (r : FloatRepr)
  deriving Repr, DecidableEq

/-- The `Float` type hint from `type_toml.go` (only the `Exponent` field
is consulted by the float branch). -/
structure FloatHint where
  Exponent : Bool
  deriving Repr, DecidableEq

/-- `floatAddDecimal` from encode.go: append `.0` when the formatted
float contains no decimal point. -/
def floatAddDecimal (fstr : List Char) : List Char :=
  if '.' ∈ fstr then fstr else fstr ++ ['.', '0']

/-- The float branch of `Encoder.eElement`: text written for a float64
value under a given (possibly defaulted) `Float` hint. -/
def eElementFloat (typ : FloatHint) (f : GoFloat) : List Char :=
  match f with
  | GoFloat.nan _ => ['n', 'a', 'n']
  | GoFloat.inf s => (if s then '-' else '+') :: ['i', 'n', 'f']
  | GoFloat.finite r =>
      if typ.Exponent then r.formatE else floatAddDecimal r.formatF

/-- Claim C7 (counterexample): the claim says a negative NaN encodes with
its sign bit carried (`-nan`), but `eElement` writes `nan` for every NaN
regardless of the sign bit, so the encoded form of a signbit-set NaN does
not begin with `-`. -/
theorem claim_C7_counterexample :
    eElementFloat ⟨false⟩ (GoFloat.nan true) = ['n', 'a', 'n'] ∧
      (eElementFloat ⟨false⟩ (GoFloat.nan true)).head? ≠ some '-' :=
  ⟨rfl, by decide⟩

/-- Claim C7 (amended): for every finite float value the encoded text has
at least one digit on each side of the decimal point (a bare `1` encodes
as `1.0`), scientific notation is used exactly when the hint requests
exponent form; NaN encodes as `nan` with the sign NOT preserved (`-nan`
also emits `nan`); positive and negative infinity encode with a leading
`+` or `-` (only `±inf` and `-0.0` carry the sign bit, a NaN does not). -/
theorem claim_C7_float_rendering_amended :
    (∀ (typ : FloatHint) (r : FloatRepr), FloatRepr.WF r →
      typ.Exponent = false →
      ∃ fr, fr ≠ [] ∧ (∀ c ∈ fr, isDigit c) ∧
        eElementFloat typ (GoFloat.finite r) =
          (if r.neg then ['-'] else []) ++ r.intDigits ++ '.' :: fr) ∧
    (∀ (typ : FloatHint) (b : Bool),
      eElementFloat typ (GoFloat.nan b) = ['n', 'a', 'n']) ∧
    (∀ (typ : FloatHint) (b : Bool),
      eElementFloat typ (GoFloat.inf b) =
        (if b then '-' else '+') :: ['i', 'n', 'f']) ∧
    (∀ (typ : FloatHint) (r : FloatRepr), typ.Exponent = true →
      eElementFloat typ (GoFloat.finite r) = r.formatE) := by
  refine ⟨?_, fun _ _ => rfl, fun _ _ => rfl, ?_⟩
  · intro typ r hwf hexp
    rcases hwf with ⟨hne, hint, hfrac⟩
    rcases hf : r.fracDigits with _ | ⟨f, fs⟩
    · refine ⟨['0'], by simp, by simp [isDigit], ?_⟩
      have hnomem : '.' ∉ (if r.neg then ['-'] else []) ++ r.intDigits := by
        intro hmem
        rcases List.mem_append.mp hmem with hm | hm
        · rcases hd : r.neg with _ | _ <;> rw [hd] at hm <;> simp at hm
        · have := hint '.' hm
          simp [isDigit] at this
      simp [eElementFloat, hexp, FloatRepr.formatF, hf, floatAddDecimal, hnomem]
    · refine ⟨f :: fs, by simp, by intro c hc; exact hfrac c (by rw [hf]; exact hc), ?_⟩
      simp [eElementFloat, hexp, FloatRepr.formatF, hf, floatAddDecimal]
  · intro typ r hexp
    simp [eElementFloat, hexp]

/-- Witness for C7 at the bare value `1`: it encodes as `1.0`. -/
theorem claim_C7_witness :
    FloatRepr.WF ⟨false, ['1'], []⟩ ∧
      ∃ fr, fr ≠ [] ∧ (∀ c ∈ fr, isDigit c) ∧
        eElementFloat ⟨false⟩ (GoFloat.finite ⟨false, ['1'], []⟩) =
          (if (false : Bool) then ['-'] else []) ++ ['1'] ++ '.' :: fr :=
  ⟨⟨by decide, by decide, by decide⟩,
    claim_C7_float_rendering_amended.1 ⟨false⟩ ⟨false, ['1'], []⟩
      ⟨by decide, by decide, by decide⟩ rfl⟩

/-! ## The state-function lexer (lex.go)

Embeds the `stateFn` lexer of lex.go rune for rune.  A state is an
element of `LState` (the parametrised states `lexNewLine(next)` /
`lexComment(next)` carry their continuation, which at every call site is
one of four functions).  `lexStep` performs one state-function call,
returning the updated lexer, the items sent to the channel during the
call, and the returned next state (`none` embeds a `nil` return, after
which `nextItem` can never yield another token).  The rune position `pos`
counts runes rather than bytes; token values and control flow are
unaffected by this. -/

/-- `eof = 0` from lex.go: `next` returns the zero rune at end of input
(and a genuine NUL character in the input is indistinguishable from it,
as in the Go code). -/
def eofRune : Char := Char.ofNat 0

/-- The `itemType` enumeration of lex.go. -/
inductive ItemT where
  | itemError | itemNIL | itemEOF | itemText | itemString | itemBool
  | itemInteger | itemFloat | itemArray | itemDatetime | itemKeyGroupStart
  | itemKeyGroupEnd | itemKeyStart | itemArrayStart | itemArrayEnd
  | itemCommentStart
  deriving Repr, DecidableEq

/-- An `item`: type plus value (the slice `input[start:pos]` for emitted
items, the formatted message for error items). -/
structure LItem where
  typ : ItemT
  val : List Char
  deriving Repr, DecidableEq

/-- Continuations passed to `lexNewLine` / `lexComment`; each call site in
lex.go uses one of these four states. -/
inductive LKont where
  | kTop | kCommentOrVal | kTermThenVal | kValOrArrayEnd
  deriving Repr, DecidableEq

/-- The lexer states (`stateFn`s) of lex.go. -/
inductive LState where
  | sTop | sKey | sKeySep | sValueStart | sValue | sArrayStart | sArrayEnd
  | sNegative | sNumber | sZulu | sFloatFirstAfterDot | sFloat
  | sString | sStringEsc
  | sTr | sTru | sTrue | sFa | sFal | sFals | sFalse
  | sKeyGroupTextStart | sKeyGroupText | sValTerm
  | sCommentOrVal | sTermThenVal | sValOrArrayEnd
  | sNewLine (k : LKont) | sComment (k : LKont)
  deriving Repr, DecidableEq

/-- The mutable fields of `lexer` (the items channel is returned by
`lexStep` instead of being buffered). -/
structure Lexer where
  input : List Char
  start : Nat
  pos : Nat
  width : Nat
  arrayDepth : Int
  deriving Repr, DecidableEq

/-- `lexer.next`: consume and return one rune, or the `eof` rune (with
`width = 0`) at end of input. -/
def lnext (lx : Lexer) : Lexer × Char :=
  if lx.pos ≥ lx.input.length then ({ lx with width := 0 }, eofRune)
  else ({ lx with pos := lx.pos + 1, width := 1 }, lx.input.getD lx.pos ' ')

/-- `lexer.backup`: step back one rune. -/
def lbackup (lx : Lexer) : Lexer := { lx with pos := lx.pos - lx.width }

/-- `lexer.ignore`: discard pending input. -/
def lignore (lx : Lexer) : Lexer := { lx with start := lx.pos }

/-- `lexer.accept`: consume the next rune when it equals `valid`. -/
def laccept (lx : Lexer) (valid : Char) : Lexer × Bool :=
  let (lx1, r) := lnext lx
  if r = valid then (lx1, true) else (lbackup lx1, false)

/-- `lexer.emit`: produce an item holding `input[start:pos]` and move
`start` up to `pos`. -/
def lemit (lx : Lexer) (t : ItemT) : Lexer × LItem :=
  ({ lx with start := lx.pos },
   ⟨t, (lx.input.drop lx.start).take (lx.pos - lx.start)⟩)

/-- `isWhitespace` from lex.go. -/
def isWhitespaceL (r : Char) : Bool := r = '\t' || r = ' '

/-- `isNL` from lex.go. -/
def isNL (r : Char) : Bool := r = '\n' || r = '\r'

/-- `lexer.isValTerm`: value terminators depend on being inside an
array. -/
def isValTerm (lx : Lexer) (r : Char) : Bool :=
  if lx.arrayDepth = 0 then isWhitespaceL r || isNL r
  else isWhitespaceL r || isNL r || r = ']' || r = ','

/-- Result of one state-function call: updated lexer, emitted items, and
the next state (`none` for a `nil` return). -/
def LexRes : Type := Lexer × List LItem × Option LState

/-- `lexer.errorf`: emit a single error item and return `nil`. -/
def mkErr (lx : Lexer) (msg : List Char) : LexRes := (lx, [⟨ItemT.itemError, msg⟩], none)

/-- Helper assembling an error message with one `%c` verb. -/
def cmsg (pre : String) (c : Char) (post : String) : List Char :=
  pre.data ++ c :: post.data

/-- The state a `LKont` continuation stands for. -/
def kontState : LKont → LState
  | LKont.kTop => LState.sTop
  | LKont.kCommentOrVal => LState.sCommentOrVal
  | LKont.kTermThenVal => LState.sTermThenVal
  | LKont.kValOrArrayEnd => LState.sValOrArrayEnd

/-- `lexTop`. -/
def stepTop (lx : Lexer) : LexRes :=
  let (lx, r) := lnext lx
  if r = eofRune then
    let (lx, it) := lemit lx ItemT.itemEOF
    (lx, [it], none)
  else if isWhitespaceL r || isNL r then
    (lignore lx, [], some LState.sTop)
  else if r = '#' then
    (lbackup lx, [], some (LState.sNewLine LKont.kTop))
  else if r = '[' then
    let (lx, it) := lemit lx ItemT.itemKeyGroupStart
    (lx, [it], some LState.sKeyGroupTextStart)
  else
    let lx := lbackup lx
    let (lx, it) := lemit lx ItemT.itemKeyStart
    (lx, [it], some LState.sKey)

/-- `lexKey`: note that the `eof` rune matches neither branch, so at end
of input this state returns itself without consuming anything. -/
def stepKey (lx : Lexer) : LexRes :=
  let (lx, r) := lnext lx
  if isNL r then mkErr lx "Key names cannot contain new lines.".data
  else if isWhitespaceL r then
    let lx := lbackup lx
    let (lx, it) := lemit lx ItemT.itemText
    (lx, [it], some LState.sKeySep)
  else (lx, [], some LState.sKey)

/-- `lexKeySep`. -/
def stepKeySep (lx : Lexer) : LexRes :=
  let (lx, r) := lnext lx
  if isWhitespaceL r then (lignore lx, [], some LState.sKeySep)
  else if r = '=' then (lx, [], some LState.sValueStart)
  else mkErr lx (cmsg "Expected key separator \x27=\x27 but found \x27" r "\x27.")

/-- `lexValueStart`. -/
def stepValueStart (lx : Lexer) : LexRes :=
  let (lx, r) := lnext lx
  if isWhitespaceL r then (lignore lx, [], some LState.sValueStart)
  else (lbackup lx, [], some LState.sValue)

/-- `lexValue`. -/
def stepValue (lx : Lexer) : LexRes :=
  let lx := lignore lx
  let (lx, r) := lnext lx
  if isWhitespaceL r then (lignore lx, [], some LState.sValue)
  else if r = '\r' || r = '\n' then
    mkErr lx "Expected TOML value, but found nil instead.".data
  else if r = '"' then (lignore lx, [], some LState.sString)
  else if r = 't' then (lx, [], some LState.sTr)
  else if r = 'f' then (lx, [], some LState.sFa)
  else if r = '-' then (lx, [], some LState.sNegative)
  else if '0' ≤ r && r ≤ '9' then (lx, [], some LState.sNumber)
  else if r = '.' then
    mkErr lx "TOML float values must be of the form \x270.x\x27.".data
  else if r = '[' then
    let (lx, it) := lemit lx ItemT.itemArrayStart
    (lx, [it], some LState.sArrayStart)
  else mkErr lx (cmsg "Expected TOML value but found \x27" r "\x27 instead.")

/-- `lexArrayStart`. -/
def stepArrayStart (lx : Lexer) : LexRes :=
  let (lx, r) := lnext lx
  if isWhitespaceL r || isNL r then (lignore lx, [], some LState.sArrayStart)
  else
    let lx := { lx with arrayDepth := lx.arrayDepth + 1 }
    if r = ']' then (lx, [], some LState.sArrayEnd)
    else (lbackup lx, [], some LState.sCommentOrVal)

/-- `lexArrayEnd`. -/
def stepArrayEnd (lx : Lexer) : LexRes :=
  let lx := lbackup lx
  let lx := lignore lx
  let (lx, _) := laccept lx ']'
  let lx := { lx with arrayDepth := lx.arrayDepth - 1 }
  let (lx, it) := lemit lx ItemT.itemArrayEnd
  (lx, [it], some LState.sValTerm)

/-- `lexNegative`. -/
def stepNegative (lx : Lexer) : LexRes :=
  let (lx, r) := lnext lx
  if r = '.' then
    mkErr lx "TOML float values must be of the form \x27-0.x\x27.".data
  else if '0' ≤ r && r ≤ '9' then (lx, [], some LState.sNumber)
  else mkErr lx (cmsg "Expected a digit after negative sign, but found \x27" r "\x27.")

/-- `lexNumber`. -/
def stepNumber (lx : Lexer) : LexRes :=
  let (lx, r) := lnext lx
  if isValTerm lx r then
    let lx := lbackup lx
    let (lx, it) := lemit lx ItemT.itemInteger
    (lx, [it], some LState.sValTerm)
  else if '0' ≤ r && r ≤ '9' then (lx, [], some LState.sNumber)
  else if r = '.' then (lx, [], some LState.sFloatFirstAfterDot)
  else if r = '-' then
    if lx.pos - lx.start ≠ 5 then
      mkErr lx "All ISO8601 dates must be in full Zulu form.".data
    else (lx, [], some LState.sZulu)
  else
    mkErr lx (cmsg "Expected either a digit or a decimal point, but found \x27" r "\x27 instead.")

/-- The format template of `lexZuluDatetimeAfterYear` (a `'0'` entry
requires a digit, anything else requires that exact rune). -/
def zuluFormats : List Char :=
  ['0', '0', '-', '0', '0', 'T', '0', '0', ':', '0', '0', ':', '0', '0', 'Z']

/-- The format loop of `lexZuluDatetimeAfterYear`. -/
def zuluLoop (lx : Lexer) : List Char → LexRes
  | [] =>
    let (lx, it) := lemit lx ItemT.itemDatetime
    (lx, [it], some LState.sValTerm)
  | f :: fs =>
    let (lx, r) := lnext lx
    if f = '0' then
      if r < '0' || '9' < r then
        mkErr lx (cmsg "Expected digit in ISO8601 datetime, but found \x27" r "\x27 instead.")
      else zuluLoop lx fs
    else if f ≠ r then
      mkErr lx ("Expected \x27".data ++ f ::
        ("\x27 in ISO8601 datetime, but found \x27".data ++ r :: "\x27 instead.".data))
    else zuluLoop lx fs

/-- `lexFloatFirstAfterDot`. -/
def stepFloatFirstAfterDot (lx : Lexer) : LexRes :=
  let (lx, r) := lnext lx
  if '0' ≤ r && r ≤ '9' then (lx, [], some LState.sFloat)
  else if isNL r then
    mkErr lx "Expected a digit after the decimal point, but found a new line instead.".data
  else
    mkErr lx (cmsg "Expected a digit after the decimal point, but found \x27" r "\x27 instead.")

/-- `lexFloat`. -/
def stepFloat (lx : Lexer) : LexRes :=
  let (lx, r) := lnext lx
  if isValTerm lx r then
    let lx := lbackup lx
    let (lx, it) := lemit lx ItemT.itemFloat
    (lx, [it], some LState.sValTerm)
  else if '0' ≤ r && r ≤ '9' then (lx, [], some LState.sFloat)
  else mkErr lx (cmsg "Expected a digit but found \x27" r "\x27 instead.")

/-- `lexString`. -/
def stepString (lx : Lexer) : LexRes :=
  let (lx, r) := lnext lx
  if r = eofRune then mkErr lx "Missing closing \x27\"\x27 for string.".data
  else if r = '\r' || r = '\n' then
    mkErr lx "Strings cannot contain unescaped new lines.".data
  else if r = '\\' then (lx, [], some LState.sStringEsc)
  else if r = '"' then
    let lx := lbackup lx
    let (lx, it) := lemit lx ItemT.itemString
    let (lx, _) := laccept lx '"'
    (lx, [it], some LState.sValTerm)
  else (lx, [], some LState.sString)

/-- `lexStringEsc`. -/
def stepStringEsc (lx : Lexer) : LexRes :=
  let (lx, r) := lnext lx
  if r = '0' || r = 't' || r = 'n' || r = 'r' || r = '"' || r = '\\' then
    (lx, [], some LState.sString)
  else mkErr lx (cmsg "Invalid escape sequence \x27\\" r "\x27.")

/-- `lexTr`. -/
def stepTr (lx : Lexer) : LexRes :=
  let (lx, r) := lnext lx
  if r = 'r' then (lx, [], some LState.sTru)
  else mkErr lx (cmsg "Expected \x27true\x27 but found \x27t" r "\x27 instead.")

/-- `lexTru`. -/
def stepTru (lx : Lexer) : LexRes :=
  let (lx, r) := lnext lx
  if r = 'u' then (lx, [], some LState.sTrue)
  else mkErr lx (cmsg "Expected \x27true\x27 but found \x27tr" r "\x27 instead.")

/-- `lexTrue`. -/
def stepTrue (lx : Lexer) : LexRes :=
  let (lx, r) := lnext lx
  if r = 'e' then
    let (lx, it) := lemit lx ItemT.itemBool
    (lx, [it], some LState.sValTerm)
  else mkErr lx (cmsg "Expected \x27true\x27 but found \x27tru" r "\x27 instead.")

/-- `lexFa` (the misspelling "Exepcted" is the source's). -/
def stepFa (lx : Lexer) : LexRes :=
  let (lx, r) := lnext lx
  if r = 'a' then (lx, [], some LState.sFal)
  else mkErr lx (cmsg "Exepcted \x27false\x27 but found \x27f" r "\x27 instead.")

/-- `lexFal`. -/
def stepFal (lx : Lexer) : LexRes :=
  let (lx, r) := lnext lx
  if r = 'l' then (lx, [], some LState.sFals)
  else mkErr lx (cmsg "Exepcted \x27false\x27 but found \x27fa" r "\x27 instead.")

/-- `lexFals`. -/
def stepFals (lx : Lexer) : LexRes :=
  let (lx, r) := lnext lx
  if r = 's' then (lx, [], some LState.sFalse)
  else mkErr lx (cmsg "Exepcted \x27false\x27 but found \x27fal" r "\x27 instead.")

/-- `lexFalse`. -/
def stepFalse (lx : Lexer) : LexRes :=
  let (lx, r) := lnext lx
  if r = 'e' then
    let (lx, it) := lemit lx ItemT.itemBool
    (lx, [it], some LState.sValTerm)
  else mkErr lx (cmsg "Exepcted \x27false\x27 but found \x27fals" r "\x27 instead.")

/-- `lexKeyGroupTextStart`: the `errorf` return value is discarded in the
source, so after sending the error item lexing continues into
`lexKeyGroupText`. -/
def stepKeyGroupTextStart (lx : Lexer) : LexRes :=
  let (lx, r) := lnext lx
  if r = '.' || r = ']' then
    (lx, [⟨ItemT.itemError, "Key group names cannot be empty.".data⟩],
     some LState.sKeyGroupText)
  else (lx, [], some LState.sKeyGroupText)

/-- `lexKeyGroupText`. -/
def stepKeyGroupText (lx : Lexer) : LexRes :=
  let (lx, r) := lnext lx
  if r = '.' then
    let lx := lbackup lx
    let (lx, it) := lemit lx ItemT.itemText
    let (lx, _) := laccept lx '.'
    let lx := lignore lx
    (lx, [it], some LState.sKeyGroupTextStart)
  else if r = ']' then
    let lx := lbackup lx
    let (lx, it1) := lemit lx ItemT.itemText
    let (lx, _) := laccept lx ']'
    let (lx, it2) := lemit lx ItemT.itemKeyGroupEnd
    (lx, [it1, it2], some (LState.sNewLine LKont.kTop))
  else (lx, [], some LState.sKeyGroupText)

/-- `lexValTerm`. -/
def stepValTerm (lx : Lexer) : LexRes :=
  if lx.arrayDepth = 0 then (lx, [], some (LState.sNewLine LKont.kTop))
  else (lx, [], some LState.sTermThenVal)

/-- `lexCommentOrVal`. -/
def stepCommentOrVal (lx : Lexer) : LexRes :=
  let (lx, r) := lnext lx
  if isWhitespaceL r || isNL r then (lx, [], some LState.sCommentOrVal)
  else if r = '#' then
    (lignore (lbackup lx), [], some (LState.sNewLine LKont.kCommentOrVal))
  else (lbackup lx, [], some LState.sValue)

/-- `lexTermThenVal`. -/
def stepTermThenVal (lx : Lexer) : LexRes :=
  let (lx, r) := lnext lx
  if isWhitespaceL r || isNL r then (lx, [], some LState.sTermThenVal)
  else if r = '#' then
    (lignore (lbackup lx), [], some (LState.sNewLine LKont.kTermThenVal))
  else if r = ',' then (lx, [], some LState.sValOrArrayEnd)
  else if r = ']' then (lx, [], some LState.sArrayEnd)
  else
    mkErr lx (cmsg "Expected array terminator (\x27]\x27 or \x27,\x27), but found \x27" r "\x27 instead.")

/-- `lexValOrArrayEnd`. -/
def stepValOrArrayEnd (lx : Lexer) : LexRes :=
  let (lx, r) := lnext lx
  if isWhitespaceL r || isNL r then (lx, [], some LState.sValOrArrayEnd)
  else if r = '#' then
    (lignore (lbackup lx), [], some (LState.sNewLine LKont.kValOrArrayEnd))
  else if r = ']' then (lx, [], some LState.sArrayEnd)
  else if r = eofRune then
    mkErr lx "Expected array terminator \x27]\x27, but got EOF.".data
  else (lbackup lx, [], some LState.sValue)

/-- `lexNewLine`: at end of input this returns `nil` WITHOUT emitting an
EOF item. -/
def stepNewLine (lx : Lexer) (k : LKont) : LexRes :=
  let (lx, r) := lnext lx
  if isWhitespaceL r then (lignore lx, [], some (LState.sNewLine k))
  else if r = '#' then
    let (lx, it) := lemit lx ItemT.itemCommentStart
    (lx, [it], some (LState.sComment k))
  else if r = '\r' || r = '\n' then
    let (lx, _) := laccept lx '\r'
    let (lx, _) := laccept lx '\n'
    (lignore lx, [], some (kontState k))
  else if r = eofRune then (lx, [], none)
  else mkErr lx (cmsg "Expected new line but found \x27" r "\x27 instead.")

/-- `lexComment`. -/
def stepComment (lx : Lexer) (k : LKont) : LexRes :=
  let (lx, r) := lnext lx
  if r = '\r' || r = '\n' then
    let lx := lbackup lx
    let (lx, it) := lemit lx ItemT.itemText
    (lx, [it], some (LState.sNewLine k))
  else if r = eofRune then
    let (lx, it1) := lemit lx ItemT.itemText
    let (lx, it2) := lemit lx ItemT.itemEOF
    (lx, [it1, it2], none)
  else (lx, [], some (LState.sComment k))

/-- One state-function call of the lexer. -/
def lexStep (lx : Lexer) : LState → LexRes
  | LState.sTop => stepTop lx
  | LState.sKey => stepKey lx
  | LState.sKeySep => stepKeySep lx
  | LState.sValueStart => stepValueStart lx
  | LState.sValue => stepValue lx
  | LState.sArrayStart => stepArrayStart lx
  | LState.sArrayEnd => stepArrayEnd lx
  | LState.sNegative => stepNegative lx
  | LState.sNumber => stepNumber lx
  | LState.sZulu => zuluLoop lx zuluFormats
  | LState.sFloatFirstAfterDot => stepFloatFirstAfterDot lx
  | LState.sFloat => stepFloat lx
  | LState.sString => stepString lx
  | LState.sStringEsc => stepStringEsc lx
  | LState.sTr => stepTr lx
  | LState.sTru => stepTru lx
  | LState.sTrue => stepTrue lx
  | LState.sFa => stepFa lx
  | LState.sFal => stepFal lx
  | LState.sFals => stepFals lx
  | LState.sFalse => stepFalse lx
  | LState.sKeyGroupTextStart => stepKeyGroupTextStart lx
  | LState.sKeyGroupText => stepKeyGroupText lx
  | LState.sValTerm => stepValTerm lx
  | LState.sCommentOrVal => stepCommentOrVal lx
  | LState.sTermThenVal => stepTermThenVal lx
  | LState.sValOrArrayEnd => stepValOrArrayEnd lx
  | LState.sNewLine k => stepNewLine lx k
  | LState.sComment k => stepComment lx k

/-- The lexer produced by `lex(input)`: position zero, state `lexTop`. -/
def lexInit (input : List Char) : Lexer := ⟨input, 0, 0, 0, 0⟩

/-- Run at most `n` state-function calls, collecting emitted items.
`none` as the second component means the state machine reached `nil`
(lexing finished); `some` carries the pending lexer and state. -/
def lexRun : Nat → Lexer → LState → List LItem × Option (Lexer × LState)
  | 0, lx, st => ([], some (lx, st))
  | n + 1, lx, st =>
    match lexStep lx st with
    | (_, its, none) => (its, none)
    | (lx1, its, some st1) =>
      let (more, fin) := lexRun n lx1 st1
      (its ++ more, fin)

/-- Unfolding lemma for `lexRun` at a successor fuel value. -/
theorem lexRun_succ (n : Nat) (lx : Lexer) (st : LState) :
    lexRun (n + 1) lx st =
      match lexStep lx st with
      | (_, its, none) => (its, none)
      | (lx1, its, some st1) =>
        let (more, fin) := lexRun n lx1 st1
        (its ++ more, fin) := rfl

/-- Lexer state reached on input `a` after `lexTop` emits `KeyStart`. -/
def lexStuckA : Lexer := ⟨['a'], 0, 0, 1, 0⟩

/-- Lexer state after `lexKey` consumes the `a`. -/
def lexStuckB : Lexer := ⟨['a'], 0, 1, 1, 0⟩

/-- The fixpoint state: `lexKey` at end of input returns itself without
consuming anything or emitting anything. -/
def lexStuckF : Lexer := ⟨['a'], 0, 1, 0, 0⟩

theorem lexStep_stuckF :
    lexStep lexStuckF LState.sKey = (lexStuckF, [], some LState.sKey) := rfl

theorem lexRun_stuckF (n : Nat) :
    lexRun n lexStuckF LState.sKey = ([], some (lexStuckF, LState.sKey)) := by
  induction n with
  | zero => rfl
  | succ n ih =>
    rw [lexRun_succ, lexStep_stuckF]
    simpa using ih

theorem lexRun_stuckB (n : Nat) :
    (lexRun n lexStuckB LState.sKey).2 ≠ none ∧
      ∀ it ∈ (lexRun n lexStuckB LState.sKey).1, it.typ ≠ ItemT.itemEOF := by
  cases n with
  | zero => exact ⟨by simp [lexRun], by simp [lexRun]⟩
  | succ n =>
    rw [lexRun_succ,
      show lexStep lexStuckB LState.sKey = (lexStuckF, [], some LState.sKey) from rfl]
    simp [lexRun_stuckF n]

theorem lexRun_stuckA (n : Nat) :
    (lexRun n lexStuckA LState.sKey).2 ≠ none ∧
      ∀ it ∈ (lexRun n lexStuckA LState.sKey).1, it.typ ≠ ItemT.itemEOF := by
  cases n with
  | zero => exact ⟨by simp [lexRun], by simp [lexRun]⟩
  | succ n =>
    rw [lexRun_succ,
      show lexStep lexStuckA LState.sKey = (lexStuckB, [], some LState.sKey) from rfl]
    obtain ⟨h1, h2⟩ := lexRun_stuckB n
    constructor
    · simpa using h1
    · simpa using h2

/-- Claim C4 (code_bug evidence): on the input `a` (a key name that never
reaches whitespace, `=`, or a newline) the lexer emits `KeyStart` and
then loops forever in `lexKey`, because the `eof` rune matches neither
branch of `lexKey`: no matter how many state-function calls are made,
lexing has not terminated and no `EOF` item has been emitted — against
the claim that lexing always terminates with exactly one trailing
`EOF`. -/
theorem claim_C4_lexer_hangs (n : Nat) :
    (lexRun n (lexInit ['a']) LState.sTop).2 ≠ none ∧
      ∀ it ∈ (lexRun n (lexInit ['a']) LState.sTop).1, it.typ ≠ ItemT.itemEOF := by
  cases n with
  | zero => exact ⟨by simp [lexRun], by simp [lexRun]⟩
  | succ n =>
    rw [lexRun_succ,
      show lexStep (lexInit ['a']) LState.sTop =
        (lexStuckA, [⟨ItemT.itemKeyStart, []⟩], some LState.sKey) from rfl]
    obtain ⟨h1, h2⟩ := lexRun_stuckA n
    constructor
    · simpa using h1
    · intro it hit
      rcases List.mem_cons.mp (by simpa using hit) with h | h
      · subst h; simp
      · exact h2 it h

/-! ## The table-building parser (the v1.0-era parse source, `parser`)

Embeds the parser of the parse source that pairs with `itemTableStart` /
`itemArrayTableStart` / `itemKeyStart`-`itemKeyEnd` token streams: the
state `parser` (fields `mapping`, `types`, `ordered`, `context`,
`currentKey`, `implicits`), `setValue`, `establishContext`, `setType`,
`addImplicit` / `removeImplicit` / `isImplicit`, `value` (array and
inline-table cases) and `topLevel`.

Since the lexer of that era is not part of src, the parser is driven at
the token level: a document is a list of top-level directives (table
header, array-of-tables header, dotted-key assignment, comment), and a
value is a scalar already converted by the scalar cases of `value`
(scalar conversion is analysed separately in the integer-conversion
section), an array, or an inline table.  Go's `map[string]interface{}`
is embedded as an association list with unique keys (`aput` replaces in
place or appends); the in-place mutation of nested maps through shared
references is embedded by rebuilding the root table along the navigated
path, which follows the same `[]map` (last element) / `map` rule at
every level. -/

/-- Association-list lookup (Go map read, `m[k]`). -/
def aget {α : Type} : List (String × α) → String → Option α
  | [], _ => none
  | (k', v) :: t, k => if k' = k then some v else aget t k

/-- Association-list write (Go map write, `m[k] = v`). -/
def aput {α : Type} : List (String × α) → String → α → List (String × α)
  | [], k, v => [(k, v)]
  | (k', v') :: t, k, v =>
    if k' = k then (k, v) :: t else (k', v') :: aput t k v

/-- A Go value held in the parser's `mapping`: a converted scalar, an
array (`[]interface{}`), a table (`map[string]interface{}`), or an array
of tables (`[]map[string]interface{}`).  Scalars other than the three
modelled kinds (floats, datetimes) behave identically for the claims in
scope. -/
inductive GoVal where
  | vBool (b : Bool)
  | vInt (n : Int)
  | vStr (s : List Char)
  | arr (es : List GoVal)
  | hash (t : List (String × GoVal))
  | aoh (ts : List (List (String × GoVal)))

/-- The metadata type tags used by this parser era (`tomlType`): only the
tag identity matters to the claims in scope. -/
inductive TomlTy where
  | tyBool | tyString | tyInt | tyFloat | tyDatetime | tyHash | tyArrayHash
  | tyArray
  deriving Repr, DecidableEq

/-- A scalar token after conversion by the scalar cases of `value`. -/
inductive Scalar where
  | sBool (b : Bool)
  | sInt (n : Int)
  | sStr (s : List Char)
  deriving Repr, DecidableEq

/-- The Go value a converted scalar stands for. -/
def Scalar.toGoVal : Scalar → GoVal
  | Scalar.sBool b => GoVal.vBool b
  | Scalar.sInt n => GoVal.vInt n
  | Scalar.sStr s => GoVal.vStr s

/-- A value production as handed to `parser.value`: scalar (with the
`typeOfPrimitive` tag), array, or inline table. -/
inductive PVal where
  | prim (s : Scalar) (ty : TomlTy)
  | arr (es : List PVal)
  | itab (ps : List (String × PVal))

/-- A top-level directive, i.e. what one iteration of `parser.topLevel`
consumes from the token stream. -/
inductive Dir where
  | table (k : List String)
  | arrayTable (k : List String)
  | keyval (k : List String) (v : PVal)
  | comment

/-- Modelled from the spec: member of the bare-key character set (ASCII
letters, digits, `_`, `-`); used by the display form of keys. -/
def bareChar (c : Char) : Bool :=
  c.isAlpha || c.isDigit || c = '_' || c = '-'

/-- Modelled from the spec: the display form quotes a key segment when it
contains characters outside the bare-key set (`Key.String` lives in a
file outside this snapshot). -/
def maybeQuoted (s : String) : String :=
  if s ≠ "" ∧ s.data.all bareChar then s else "\"" ++ s ++ "\""

/-- Modelled from the spec: `Key.String`, dotted display form of a key. -/
def keyStr (k : List String) : String :=
  String.intercalate "." (k.map maybeQuoted)

/-- The parser state (`parser` struct); `approxLine` and the lexer handle
are omitted (no positions are claimed). -/
structure PState where
  mapping : List (String × GoVal)
  types : List (String × TomlTy)
  ordered : List (List String)
  context : List String
  currentKey : String
  implicits : List (String × Bool)

/-- The empty parser state built at the top of `parse`. -/
def initPState : PState := ⟨[], [], [], [], "", []⟩

/-- Outcome of a parser computation: success, a recovered `ParseError`
panic carrying its message, or a `p.bug` panic (which `parse`'s recover
re-panics, crashing the program). -/
inductive PRes (α : Type) where
  | ok (a : α)
  | perr (msg : String)
  | crash
  deriving DecidableEq

/-- Sequencing of parser computations (panic propagation). -/
def PRes.bind {α β : Type} : PRes α → (α → PRes β) → PRes β
  | PRes.ok a, f => f a
  | PRes.perr m, _ => PRes.perr m
  | PRes.crash, _ => PRes.crash

/-- `isImplicit`: read the implicits map at `key.String()`, default
false. -/
def isImplicitS (st : PState) (k : List String) : Bool :=
  (aget st.implicits (keyStr k)).getD false

/-- `addImplicit`. -/
def addImplicitS (st : PState) (k : List String) : PState :=
  { st with implicits := aput st.implicits (keyStr k) true }

/-- `removeImplicit` (sets the entry to false, it does not delete it). -/
def removeImplicitS (st : PState) (k : List String) : PState :=
  { st with implicits := aput st.implicits (keyStr k) false }

/-- `setType`: under the current context, optionally extended by a
nonempty key. -/
def setTypeS (st : PState) (key : String) (ty : TomlTy) : PState :=
  let kc := st.context ++ (if key.length > 0 then [key] else [])
  { st with types := aput st.types (keyStr kc) ty }

/-- The duplicate-key `ParseError` message of `setValue`. -/
def dupMsg (kc : List String) : String :=
  "Key \x27" ++ keyStr kc ++ "\x27 has already been defined."

/-- Result of the core of `setValue` (before the parser state is
updated): a rebuilt root table, an implicit upgrade (no write), a
duplicate-key error, or a `p.bug`. -/
inductive SetRes where
  | wrote (t : List (String × GoVal))
  | clearImp (kc : List String)
  | dup (kc : List String)
  | bug

/-- The navigation-and-write loop of `setValue`: follow `ctx` from the
root (an array of tables contributes its last element), then either
insert `key`, clear its implicit mark, or fail.  `kc` is the
accumulated `keyContext`. -/
def setValueAux (t : List (String × GoVal)) (ctx : List String)
    (kc : List String) (key : String) (v : GoVal)
    (imp : List String → Bool) : SetRes :=
  match ctx with
  | [] =>
    if (aget t key).isSome then
      if imp (kc ++ [key]) then SetRes.clearImp (kc ++ [key])
      else SetRes.dup (kc ++ [key])
    else SetRes.wrote (aput t key v)
  | c :: cs =>
    match aget t c with
    | none => SetRes.bug
    | some (GoVal.hash h) =>
      match setValueAux h cs (kc ++ [c]) key v imp with
      | SetRes.wrote h' => SetRes.wrote (aput t c (GoVal.hash h'))
      | r => r
    | some (GoVal.aoh ts) =>
      match ts.getLast? with
      | none => SetRes.bug
      | some h =>
        match setValueAux h cs (kc ++ [c]) key v imp with
        | SetRes.wrote h' =>
          SetRes.wrote (aput t c (GoVal.aoh (ts.dropLast ++ [h'])))
        | r => r
    | some _ => SetRes.bug

/-- `parser.setValue`. -/
def setValue (st : PState) (key : String) (v : GoVal) : PRes PState :=
  match setValueAux st.mapping st.context [] key v (fun kc => isImplicitS st kc) with
  | SetRes.wrote m => PRes.ok { st with mapping := m }
  | SetRes.clearImp kc => PRes.ok (removeImplicitS st kc)
  | SetRes.dup kc => PRes.perr (dupMsg kc)
  | SetRes.bug => PRes.crash

/-- Read-only image of the same navigation: the table `setValue` (and the
prefix walk of `establishContext`) would reach by following `ctx`. -/
def ctxGet (t : List (String × GoVal)) : List String →
    Option (List (String × GoVal))
  | [] => some t
  | c :: cs =>
    match aget t c with
    | some (GoVal.hash h) => ctxGet h cs
    | some (GoVal.aoh ts) =>
      match ts.getLast? with
      | some h => ctxGet h cs
      | none => none
    | _ => none

/-- The prefix loop of `establishContext` over `key[0 : len(key)-1]`:
create missing intermediate tables (marking them implicit) and drill
down, rebuilding the root on the way back. -/
def estabPrefix (t : List (String × GoVal)) (ks : List String)
    (kc : List String) (imps : List (String × Bool)) :
    PRes (List (String × GoVal) × List (String × Bool)) :=
  match ks with
  | [] => PRes.ok (t, imps)
  | k :: rest =>
    let kc' := kc ++ [k]
    let t0 := if (aget t k).isNone then aput t k (GoVal.hash []) else t
    let imps0 := if (aget t k).isNone then aput imps (keyStr kc') true else imps
    match aget t0 k with
    | none => PRes.crash
    | some (GoVal.hash h) =>
      (estabPrefix h rest kc' imps0).bind fun p =>
        PRes.ok (aput t0 k (GoVal.hash p.1), p.2)
    | some (GoVal.aoh ts) =>
      match ts.getLast? with
      | none => PRes.crash
      | some h =>
        (estabPrefix h rest kc' imps0).bind fun p =>
          PRes.ok (aput t0 k (GoVal.aoh (ts.dropLast ++ [p.1])), p.2)
    | some _ =>
      PRes.perr ("Key \x27" ++ keyStr kc' ++ "\x27 was already created as a hash.")

/-- Apply `f` to the table reached by following `path` (same navigation
rule), rebuilding the root; embeds mutation through the held
`hashContext` reference. -/
def modifyAtCtx (t : List (String × GoVal)) (path : List String)
    (f : List (String × GoVal) → PRes (List (String × GoVal))) :
    PRes (List (String × GoVal)) :=
  match path with
  | [] => f t
  | c :: cs =>
    match aget t c with
    | none => PRes.crash
    | some (GoVal.hash h) =>
      (modifyAtCtx h cs f).bind fun h' => PRes.ok (aput t c (GoVal.hash h'))
    | some (GoVal.aoh ts) =>
      match ts.getLast? with
      | none => PRes.crash
      | some h =>
        (modifyAtCtx h cs f).bind fun h' =>
          PRes.ok (aput t c (GoVal.aoh (ts.dropLast ++ [h'])))
    | some _ => PRes.crash

/-- The array branch of `establishContext` at the context table: allocate
the array of tables if absent, then append a fresh table — or fail if
the key holds something else.  The error message uses the (prefix)
`keyContext`, as in the source. -/
def arrayAppendAt (kc : List String) (k : String)
    (h : List (String × GoVal)) : PRes (List (String × GoVal)) :=
  let h0 := if (aget h k).isNone then aput h k (GoVal.aoh []) else h
  match aget h0 k with
  | some (GoVal.aoh ts) => PRes.ok (aput h0 k (GoVal.aoh (ts ++ [[]])))
  | _ =>
    PRes.perr ("Key \x27" ++ keyStr kc ++
      "\x27 was already created and cannot be used as an array.")

/-- Tail of `establishContext` after the prefix walk, with `p.context`
already set to the prefix: the array branch appends a fresh table at the
context, the table branch goes through `setValue`; both then extend the
context by the final segment. -/
def estabFinish (st1 : PState) (pre : List String) (last : String)
    (array : Bool) : PRes PState :=
  if array then
    (modifyAtCtx st1.mapping pre (arrayAppendAt pre last)).bind fun t2 =>
      PRes.ok { st1 with mapping := t2, context := pre ++ [last] }
  else
    (setValue st1 last (GoVal.hash [])).bind fun st2 =>
      PRes.ok { st2 with context := pre ++ [last] }

/-- `parser.establishContext`. -/
def establishContext (st : PState) (key : List String) (array : Bool) :
    PRes PState :=
  match key.getLast? with
  | none => PRes.crash
  | some last =>
    let pre := key.dropLast
    (estabPrefix st.mapping pre [] st.implicits).bind fun p =>
      estabFinish { st with mapping := p.1, implicits := p.2, context := pre }
        pre last array

mutual
/-- `parser.value`: scalar cases return the converted value and its
`typeOfPrimitive` tag; arrays collect element values; inline tables
build a hash while recording per-member type and key order (the source
performs no duplicate check inside inline tables — `hash[kname] = val`
overwrites). -/
def evalVal (st : PState) : PVal → PRes (PState × GoVal × TomlTy)
  | PVal.prim s ty => PRes.ok (st, s.toGoVal, ty)
  | PVal.arr es =>
    (evalList st es).bind fun p => PRes.ok (p.1, GoVal.arr p.2, TomlTy.tyArray)
  | PVal.itab ps =>
    let outerCtx := st.context
    let outerKey := st.currentKey
    let stIn := { st with context := st.context ++ [st.currentKey], currentKey := "" }
    (evalPairs stIn [] ps).bind fun p =>
      PRes.ok ({ p.1 with context := outerCtx, currentKey := outerKey },
        GoVal.hash p.2, TomlTy.tyHash)

/-- Element loop of the `itemArray` case of `value`. -/
def evalList (st : PState) : List PVal → PRes (PState × List GoVal)
  | [] => PRes.ok (st, [])
  | pv :: ps =>
    (evalVal st pv).bind fun q =>
      (evalList q.1 ps).bind fun r => PRes.ok (r.1, q.2.1 :: r.2)

/-- Member loop of the `itemInlineTableStart` case of `value`. -/
def evalPairs (st : PState) (acc : List (String × GoVal)) :
    List (String × PVal) → PRes (PState × List (String × GoVal))
  | [] => PRes.ok (st, acc)
  | (k, pv) :: ps =>
    (evalVal { st with currentKey := k } pv).bind fun q =>
      let st2 := setTypeS q.1 k q.2.2
      let st3 := { st2 with
        ordered := st2.ordered ++ [st2.context ++ [st2.currentKey]] }
      evalPairs st3 (aput acc k q.2.1) ps
end

/-- The dotted-key prefix loop of the `itemKeyStart` case of `topLevel`:
each prefix segment is marked implicit and established as a table
context. -/
def estabDotted (st : PState) : List String → PRes PState
  | [] => PRes.ok st
  | k :: ks =>
    let app := st.context ++ [k]
    (establishContext (addImplicitS st app) app false).bind fun st1 =>
      estabDotted st1 ks

/-- Tail of the `itemKeyStart` case of `topLevel` after the value is
produced (`q` is the state–value–type triple): `p.set` (that is,
`setValue` then `setType` at the current key), append the full key to
`ordered`, restore the context via the `p.context[:len(key)-2]` slice
when the key was dotted, and clear `currentKey`. -/
def keyvalFinish (q : PState × GoVal × TomlTy) (klen : Nat) : PRes PState :=
  (setValue q.1 q.1.currentKey q.2.1).bind fun st3 =>
    let st4 := setTypeS st3 st3.currentKey q.2.2
    let st5 :=
      { st4 with ordered := st4.ordered ++ [st4.context ++ [st4.currentKey]] }
    let st6 :=
      if klen > 1 then { st5 with context := st5.context.take (klen - 2) }
      else st5
    PRes.ok { st6 with currentKey := "" }

/-- `parser.topLevel`, one directive. -/
def topLevel (st : PState) : Dir → PRes PState
  | Dir.comment => PRes.ok st
  | Dir.table k =>
    (establishContext st k false).bind fun st1 =>
      let st2 := setTypeS st1 "" TomlTy.tyHash
      PRes.ok { st2 with ordered := st2.ordered ++ [k] }
  | Dir.arrayTable k =>
    (establishContext st k true).bind fun st1 =>
      let st2 := setTypeS st1 "" TomlTy.tyArrayHash
      PRes.ok { st2 with ordered := st2.ordered ++ [k] }
  | Dir.keyval k v =>
    match k.getLast? with
    | none => PRes.crash
    | some lastk =>
      let st0 := { st with currentKey := lastk }
      (if k.length > 1 then estabDotted st0 k.dropLast else PRes.ok st0).bind
        fun st1 =>
      (evalVal st1 v).bind fun q => keyvalFinish q k.length

/-- The `for` loop of `parse`: feed directives to `topLevel` until EOF. -/
def parseDoc (st : PState) : List Dir → PRes PState
  | [] => PRes.ok st
  | d :: ds => (topLevel st d).bind fun st1 => parseDoc st1 ds

theorem aget_aput_self {α : Type} (m : List (String × α)) (s : String) (b : α) :
    aget (aput m s b) s = some b := by
  induction m with
  | nil => simp [aget, aput]
  | cons kv t ih =>
    obtain ⟨k', v'⟩ := kv
    by_cases hk : k' = s
    · simp [aget, aput, hk]
    · simp [aget, aput, hk, ih]

theorem aget_aput_other {α : Type} (m : List (String × α)) (s s' : String)
    (b : α) (hne : s' ≠ s) : aget (aput m s b) s' = aget m s' := by
  have hne' : ¬ s = s' := fun h => hne h.symm
  induction m with
  | nil => simp [aget, aput, hne']
  | cons kv t ih =>
    obtain ⟨k', v'⟩ := kv
    by_cases hk : k' = s
    · subst hk
      simp [aget, aput, hne']
    · by_cases hk' : k' = s'
      · simp [aget, aput, hk, hk', hne]
      · simp [aget, aput, hk, hk', ih]

/-- When the navigated context table holds `key`, `setValueAux` ends in
either the implicit upgrade or the duplicate error, depending on the
implicit mark of the full key context. -/
theorem setValueAux_mem (k : String) (v : GoVal) (imp : List String → Bool) :
    ∀ (ctx : List String) (t h : List (String × GoVal)) (kc : List String),
      ctxGet t ctx = some h → (aget h k).isSome →
      setValueAux t ctx kc k v imp =
        (if imp (kc ++ ctx ++ [k]) then SetRes.clearImp (kc ++ ctx ++ [k])
         else SetRes.dup (kc ++ ctx ++ [k])) := by
  intro ctx
  induction ctx with
  | nil =>
    intro t h kc hnav hmem
    have ht : t = h := by simpa [ctxGet] using hnav
    subst ht
    simp [setValueAux, hmem]
  | cons c cs ih =>
    intro t h kc hnav hmem
    rcases hg : aget t c with _ | val
    · simp [ctxGet, hg] at hnav
    · cases val with
      | hash h1 =>
        have hnav1 : ctxGet h1 cs = some h := by simpa [ctxGet, hg] using hnav
        have hrec := ih h1 h (kc ++ [c]) hnav1 hmem
        simp only [setValueAux, hg, hrec]
        by_cases himp : imp (kc ++ c :: cs ++ [k])
        · simp [List.append_assoc] at himp ⊢
          simp [himp]
        · simp [List.append_assoc] at himp ⊢
          simp [himp]
      | aoh ts =>
        rcases hl : ts.getLast? with _ | h1
        · simp [ctxGet, hg, hl] at hnav
        · have hnav1 : ctxGet h1 cs = some h := by
            simpa [ctxGet, hg, hl] using hnav
          have hrec := ih h1 h (kc ++ [c]) hnav1 hmem
          simp only [setValueAux, hg, hl, hrec]
          by_cases himp : imp (kc ++ c :: cs ++ [k])
          · simp [List.append_assoc] at himp ⊢
            simp [himp]
          · simp [List.append_assoc] at himp ⊢
            simp [himp]
      | vBool b => simp [ctxGet, hg] at hnav
      | vInt n => simp [ctxGet, hg] at hnav
      | vStr s => simp [ctxGet, hg] at hnav
      | arr es => simp [ctxGet, hg] at hnav

/-- `setValue` on a concretely-present, non-implicit key: the duplicate
error. -/
theorem setValue_dup (st : PState) (k : String) (v : GoVal)
    (h : List (String × GoVal))
    (hnav : ctxGet st.mapping st.context = some h)
    (hmem : (aget h k).isSome)
    (himp : isImplicitS st (st.context ++ [k]) = false) :
    setValue st k v = PRes.perr (dupMsg (st.context ++ [k])) := by
  unfold setValue
  rw [setValueAux_mem k v _ st.context st.mapping h [] hnav hmem]
  simp [himp]

/-- `setValue` on a present key that is still marked implicit: clear the
mark and return without writing. -/
theorem setValue_clear (st : PState) (k : String) (v : GoVal)
    (h : List (String × GoVal))
    (hnav : ctxGet st.mapping st.context = some h)
    (hmem : (aget h k).isSome)
    (himp : isImplicitS st (st.context ++ [k]) = true) :
    setValue st k v = PRes.ok (removeImplicitS st (st.context ++ [k])) := by
  unfold setValue
  rw [setValueAux_mem k v _ st.context st.mapping h [] hnav hmem]
  simp [himp]

/-- Claim C2 (amended): a concrete definition of a fully-qualified key
that reaches `setValue` while the key is already concretely defined
fails with the duplicate-key parse error; when the existing entry is
only implicit, the first explicit definition succeeds (leaving the
stored table in place) and only a second explicit definition of the same
key fails.  Inline-table members never reach `setValue` (the member loop
writes `hash[kname] = val` with no duplicate check), so the claim's
"any document" universal fails for duplicate keys inside an inline
table. -/
theorem claim_C2_duplicate_and_upgrade_amended (st : PState) (k : String)
    (v v2 : GoVal) (h : List (String × GoVal))
    (hnav : ctxGet st.mapping st.context = some h)
    (hmem : (aget h k).isSome) :
    (isImplicitS st (st.context ++ [k]) = false →
      setValue st k v = PRes.perr (dupMsg (st.context ++ [k]))) ∧
    (isImplicitS st (st.context ++ [k]) = true →
      ∃ st2, setValue st k v = PRes.ok st2 ∧ st2.mapping = st.mapping ∧
        st2.context = st.context ∧
        setValue st2 k v2 = PRes.perr (dupMsg (st.context ++ [k]))) := by
  constructor
  · intro himp
    exact setValue_dup st k v h hnav hmem himp
  · intro himp
    refine ⟨removeImplicitS st (st.context ++ [k]),
      setValue_clear st k v h hnav hmem himp, rfl, rfl, ?_⟩
    have himp2 : isImplicitS (removeImplicitS st (st.context ++ [k]))
        (st.context ++ [k]) = false := by
      simp [isImplicitS, removeImplicitS, aget_aput_self]
    exact setValue_dup (removeImplicitS st (st.context ++ [k])) k v2 h
      hnav hmem himp2

/-- Parser state as reached after the header `[a.b]` (the table `a`
containing `b` exists, `a` is marked implicit, context is back at the
root as when a following `[a]` header calls `setValue`). -/
def stImplicitA : PState :=
  ⟨[("a", GoVal.hash [("b", GoVal.hash [])])], [], [], [], "", [("a", true)]⟩

/-- Witness for C2: after `[a.b]`, a first `[a]` upgrade succeeds without
touching the mapping and a second one fails with the duplicate-key
error. -/
theorem claim_C2_witness :
    ∃ st2, setValue stImplicitA "a" (GoVal.hash []) = PRes.ok st2 ∧
      st2.mapping = stImplicitA.mapping ∧ st2.context = stImplicitA.context ∧
      setValue st2 "a" (GoVal.hash []) =
        PRes.perr (dupMsg (stImplicitA.context ++ ["a"])) :=
  (claim_C2_duplicate_and_upgrade_amended stImplicitA "a" (GoVal.hash [])
    (GoVal.hash []) stImplicitA.mapping rfl (by decide)).2 (by decide)

/-- The document `p = { x = 1, x = 2 }`: one key-value statement whose
inline table defines the fully-qualified key `p.x` twice. -/
def dsDupInline : List Dir :=
  [Dir.keyval ["p"] (PVal.itab
    [("x", PVal.prim (Scalar.sInt 1) TomlTy.tyInt),
     ("x", PVal.prim (Scalar.sInt 2) TomlTy.tyInt)])]

/-- Claim C2 (counterexample): the document `p = { x = 1, x = 2 }`
contains two concrete definitions of the fully-qualified key `p.x`, yet
it parses successfully — the inline-table member loop stores values with
`hash[kname] = val` and no duplicate check, so the second definition
silently wins. -/
theorem claim_C2_counterexample :
    ∃ st : PState, parseDoc initPState dsDupInline = PRes.ok st ∧
      st.mapping = [("p", GoVal.hash [("x", GoVal.vInt 2)])] :=
  ⟨_, rfl, rfl⟩

/-- Claim C9: when `setValue` finds the key already present in the
current context table and marked implicit, it only clears the implicit
mark and returns without writing: the mapping (hence the stored table
and all its contents), the key order, the type map, the context and the
current key are all left unchanged, and no other implicit mark is
touched. -/
theorem claim_C9_upgrade_preserves (st : PState) (k : String) (v : GoVal)
    (h : List (String × GoVal))
    (hnav : ctxGet st.mapping st.context = some h)
    (hmem : (aget h k).isSome)
    (himp : isImplicitS st (st.context ++ [k]) = true) :
    setValue st k v = PRes.ok (removeImplicitS st (st.context ++ [k])) ∧
    (removeImplicitS st (st.context ++ [k])).mapping = st.mapping ∧
    (removeImplicitS st (st.context ++ [k])).ordered = st.ordered ∧
    (removeImplicitS st (st.context ++ [k])).types = st.types ∧
    (removeImplicitS st (st.context ++ [k])).context = st.context ∧
    (removeImplicitS st (st.context ++ [k])).currentKey = st.currentKey ∧
    isImplicitS (removeImplicitS st (st.context ++ [k]))
      (st.context ++ [k]) = false ∧
    ∀ k2 : List String, keyStr k2 ≠ keyStr (st.context ++ [k]) →
      isImplicitS (removeImplicitS st (st.context ++ [k])) k2 =
        isImplicitS st k2 := by
  refine ⟨setValue_clear st k v h hnav hmem himp, rfl, rfl, rfl, rfl, rfl,
    by simp [isImplicitS, removeImplicitS, aget_aput_self], ?_⟩
  intro k2 hne
  simp [isImplicitS, removeImplicitS, aget_aput_other _ _ _ _ hne]

/-- Witness for C9 at the `[a.b]` then `[a]` state. -/
theorem claim_C9_witness :
    setValue stImplicitA "a" (GoVal.hash []) =
      PRes.ok (removeImplicitS stImplicitA (stImplicitA.context ++ ["a"])) ∧
      (removeImplicitS stImplicitA (stImplicitA.context ++ ["a"])).mapping =
        stImplicitA.mapping :=
  let hfull := claim_C9_upgrade_preserves stImplicitA "a" (GoVal.hash [])
    stImplicitA.mapping rfl (by decide) (by decide)
  ⟨hfull.1, hfull.2.1⟩

mutual
/-- True when a value contains no inline table (used to delimit the
documents for which the key-order claim survives; the source appends an
inline table's member keys to `ordered` before the table's own key). -/
def noItab : PVal → Bool
  | PVal.prim _ _ => true
  | PVal.arr es => noItabL es
  | PVal.itab _ => false

/-- `noItab` over a list of array elements. -/
def noItabL : List PVal → Bool
  | [] => true
  | v :: vs => noItab v && noItabL vs
end

/-- A directive whose shape keeps the parser's context bookkeeping
sound: key-value statements use a single-segment key (the source's
dotted-key context restore truncates to the wrong length) and no inline
tables. -/
def simpleDir : Dir → Bool
  | Dir.keyval k v => k.length = 1 && noItab v
  | _ => true

/-- Restriction of a document to sound directives. -/
def simpleDoc (ds : List Dir) : Bool := ds.all simpleDir

/-- The left-to-right, top-to-bottom textual order of key occurrences of
a document, as the claim describes it: each header contributes its full
key and establishes the context, each key-value contributes the context
extended by its key. -/
def specOrder (ctx : List String) : List Dir → List (List String)
  | [] => []
  | Dir.comment :: ds => specOrder ctx ds
  | Dir.table k :: ds => k :: specOrder k ds
  | Dir.arrayTable k :: ds => k :: specOrder k ds
  | Dir.keyval k _ :: ds => (ctx ++ k) :: specOrder ctx ds

theorem dropLast_append_of_getLast? {α : Type} (l : List α) (a : α)
    (h : l.getLast? = some a) : l.dropLast ++ [a] = l := by
  induction l with
  | nil => simp at h
  | cons x xs ih =>
    cases xs with
    | nil =>
      simp [List.getLast?] at h
      simp [h]
    | cons y ys =>
      have h' : (y :: ys).getLast? = some a := by
        simpa [List.getLast?_cons_cons] using h
      have := ih h'
      simp [List.dropLast, this]

/-- A successful `setValue` never touches `ordered`, `context`,
`currentKey` or `types`. -/
theorem setValue_frame (st : PState) (k : String) (v : GoVal) (st' : PState)
    (h : setValue st k v = PRes.ok st') :
    st'.ordered = st.ordered ∧ st'.context = st.context ∧
      st'.currentKey = st.currentKey ∧ st'.types = st.types := by
  unfold setValue at h
  rcases hs : setValueAux st.mapping st.context [] k v
      (fun kc => isImplicitS st kc) with t | kc | kc | _ <;> rw [hs] at h
  · cases h; exact ⟨rfl, rfl, rfl, rfl⟩
  · cases h; exact ⟨rfl, rfl, rfl, rfl⟩
  · exact PRes.noConfusion h
  · exact PRes.noConfusion h

/-- A successful `estabFinish` keeps `ordered` and `currentKey` and sets
the context to `pre ++ [last]`. -/
theorem estabFinish_frame (st1 : PState) (pre : List String) (last : String)
    (arr : Bool) (st' : PState)
    (h : estabFinish st1 pre last arr = PRes.ok st') :
    st'.ordered = st1.ordered ∧ st'.currentKey = st1.currentKey ∧
      st'.context = pre ++ [last] := by
  unfold estabFinish at h
  cases arr with
  | true =>
    simp only [if_true] at h
    rcases hm : modifyAtCtx st1.mapping pre (arrayAppendAt pre last)
        with t2 | m | _ <;> rw [hm] at h <;> simp only [PRes.bind] at h
    · cases h; exact ⟨rfl, rfl, rfl⟩
    · exact PRes.noConfusion h
    · exact PRes.noConfusion h
  | false =>
    simp only [Bool.false_eq_true, if_false] at h
    rcases hsv : setValue st1 last (GoVal.hash [])
        with st2 | m | _ <;> rw [hsv] at h <;> simp only [PRes.bind] at h
    · cases h
      obtain ⟨ho, _, hck, _⟩ := setValue_frame _ _ _ _ hsv
      exact ⟨ho, hck, rfl⟩
    · exact PRes.noConfusion h
    · exact PRes.noConfusion h

/-- A successful `establishContext` keeps `ordered` and `currentKey` and
sets the context to the header key. -/
theorem establishContext_frame (st : PState) (key : List String) (arr : Bool)
    (st' : PState) (h : establishContext st key arr = PRes.ok st') :
    st'.ordered = st.ordered ∧ st'.currentKey = st.currentKey ∧
      st'.context = key := by
  unfold establishContext at h
  rcases hl : key.getLast? with _ | last <;> rw [hl] at h <;> dsimp only at h
  · exact PRes.noConfusion h
  · rcases hp : estabPrefix st.mapping key.dropLast [] st.implicits
        with p | m | _ <;> rw [hp] at h <;> simp only [PRes.bind] at h
    · obtain ⟨ho, hck, hctx⟩ := estabFinish_frame _ _ _ _ _ h
      exact ⟨ho, hck, by rw [hctx]; exact dropLast_append_of_getLast? key last hl⟩
    · exact PRes.noConfusion h
    · exact PRes.noConfusion h

/-- Evaluating an inline-table-free value neither fails nor changes the
parser state. -/
theorem evalPure (n : Nat) :
    (∀ v : PVal, sizeOf v ≤ n → noItab v = true →
      ∀ st : PState, ∃ gv ty, evalVal st v = PRes.ok (st, gv, ty)) ∧
    (∀ es : List PVal, sizeOf es ≤ n → noItabL es = true →
      ∀ st : PState, ∃ vs, evalList st es = PRes.ok (st, vs)) := by
  induction n with
  | zero =>
    constructor
    · intro v hsz _ _
      exfalso
      cases v <;> simp at hsz
    · intro es hsz _ _
      exfalso
      cases es <;> simp at hsz
  | succ n ih =>
    constructor
    · intro v hsz hni st
      cases v with
      | prim s ty => exact ⟨s.toGoVal, ty, rfl⟩
      | arr es =>
        have hsz' : sizeOf es ≤ n := by simp at hsz; omega
        have hni' : noItabL es = true := by simpa [noItab] using hni
        obtain ⟨vs, hvs⟩ := ih.2 es hsz' hni' st
        exact ⟨GoVal.arr vs, TomlTy.tyArray, by simp [evalVal, hvs, PRes.bind]⟩
      | itab ps => simp [noItab] at hni
    · intro es hsz hni st
      cases es with
      | nil => exact ⟨[], rfl⟩
      | cons v vs =>
        have hszv : sizeOf v ≤ n := by simp at hsz; omega
        have hszvs : sizeOf vs ≤ n := by
          have h1 : 1 ≤ sizeOf v := by cases v <;> simp <;> omega
          simp at hsz; omega
        have hniv : noItab v = true := by
          simp [noItabL, Bool.and_eq_true] at hni; exact hni.1
        have hnivs : noItabL vs = true := by
          simp [noItabL, Bool.and_eq_true] at hni; exact hni.2
        obtain ⟨gv, ty, hv⟩ := ih.1 v hszv hniv st
        obtain ⟨vs', hvs⟩ := ih.2 vs hszvs hnivs st
        exact ⟨gv :: vs', by simp [evalList, hv, hvs, PRes.bind]⟩

theorem keyvalFinish_frame (q : PState × GoVal × TomlTy) (st' : PState)
    (h : keyvalFinish q 1 = PRes.ok st') :
    st'.ordered = q.1.ordered ++ [q.1.context ++ [q.1.currentKey]] ∧
      st'.context = q.1.context := by
  unfold keyvalFinish at h
  rcases hsv : setValue q.1 q.1.currentKey q.2.1
      with st3 | m | _ <;> rw [hsv] at h <;> simp only [PRes.bind] at h
  · obtain ⟨ho, hctx, hck, _⟩ := setValue_frame _ _ _ _ hsv
    cases h
    constructor
    · simp [setTypeS, ho, hctx, hck]
    · simp [setTypeS, hctx]
  · exact PRes.noConfusion h
  · exact PRes.noConfusion h

theorem topLevel_table_frame (st : PState) (k : List String) (st1 : PState)
    (h : topLevel st (Dir.table k) = PRes.ok st1) :
    st1.ordered = st.ordered ++ [k] ∧ st1.context = k ∧
      st1.currentKey = st.currentKey := by
  unfold topLevel at h
  dsimp only at h
  rcases he : establishContext st k false
      with stA | m | _ <;> rw [he] at h <;> simp only [PRes.bind] at h
  · obtain ⟨ho, hck, hctx⟩ := establishContext_frame _ _ _ _ he
    cases h
    exact ⟨by simp [setTypeS, ho], by simp [setTypeS, hctx], by simp [setTypeS, hck]⟩
  · exact PRes.noConfusion h
  · exact PRes.noConfusion h

theorem topLevel_arrayTable_frame (st : PState) (k : List String) (st1 : PState)
    (h : topLevel st (Dir.arrayTable k) = PRes.ok st1) :
    st1.ordered = st.ordered ++ [k] ∧ st1.context = k ∧
      st1.currentKey = st.currentKey := by
  unfold topLevel at h
  dsimp only at h
  rcases he : establishContext st k true
      with stA | m | _ <;> rw [he] at h <;> simp only [PRes.bind] at h
  · obtain ⟨ho, hck, hctx⟩ := establishContext_frame _ _ _ _ he
    cases h
    exact ⟨by simp [setTypeS, ho], by simp [setTypeS, hctx], by simp [setTypeS, hck]⟩
  · exact PRes.noConfusion h
  · exact PRes.noConfusion h

theorem topLevel_keyval_single_frame (st : PState) (s : String) (v : PVal)
    (hni : noItab v = true) (st1 : PState)
    (h : topLevel st (Dir.keyval [s] v) = PRes.ok st1) :
    st1.ordered = st.ordered ++ [st.context ++ [s]] ∧
      st1.context = st.context := by
  unfold topLevel at h
  dsimp only at h
  rw [show ([s] : List String).getLast? = some s from rfl] at h
  dsimp only at h
  simp only [List.length_singleton, gt_iff_lt, Nat.lt_irrefl, if_false,
    PRes.bind] at h
  obtain ⟨gv, ty, hev⟩ :=
    (evalPure (sizeOf v)).1 v le_rfl hni { st with currentKey := s }
  rw [hev] at h
  simp only [PRes.bind] at h
  obtain ⟨ho, hctx⟩ := keyvalFinish_frame _ _ h
  constructor
  · simpa using ho
  · simpa using hctx

/-- Claim C8 (amended): for every successful parse of a document whose
key-value statements use single-segment keys and inline-table-free
values, `ordered` extends the initial key list by exactly the textual
occurrence order of the document's keys (one entry per header occurrence
— array-of-tables headers repeat — and one per key-value).  Dotted keys
and inline tables are excluded: the dotted-key case restores the context
with the wrong length, and an inline table's member keys are recorded
before the table's own key. -/
theorem claim_C8_key_order_amended (ds : List Dir) :
    ∀ st st' : PState, simpleDoc ds = true →
      parseDoc st ds = PRes.ok st' →
      st'.ordered = st.ordered ++ specOrder st.context ds := by
  induction ds with
  | nil =>
    intro st st' _ hp
    cases hp
    simp [specOrder]
  | cons d ds ih =>
    intro st st' hs hp
    have hsplit : (simpleDir d && simpleDoc ds) = true := hs
    rw [Bool.and_eq_true] at hsplit
    have hd := hsplit.1
    have hds := hsplit.2
    have hp' : (topLevel st d).bind (fun st1 => parseDoc st1 ds) = PRes.ok st' := hp
    rcases ht : topLevel st d with st1 | m | _ <;>
      rw [ht] at hp' <;> simp only [PRes.bind] at hp'
    · cases d with
      | comment =>
        have h2 : PRes.ok st = PRes.ok st1 := ht
        have hst : st = st1 := by cases h2; rfl
        subst hst
        simpa [specOrder] using ih st st' hds hp'
      | table k =>
        obtain ⟨ho, hctx, _⟩ := topLevel_table_frame st k st1 ht
        have := ih st1 st' hds hp'
        rw [this, ho, hctx]
        simp [specOrder]
      | arrayTable k =>
        obtain ⟨ho, hctx, _⟩ := topLevel_arrayTable_frame st k st1 ht
        have := ih st1 st' hds hp'
        rw [this, ho, hctx]
        simp [specOrder]
      | keyval k v =>
        simp only [simpleDir, Bool.and_eq_true, decide_eq_true_eq] at hd
        obtain ⟨hk1, hni⟩ := hd
        obtain ⟨s, rfl⟩ := List.length_eq_one.mp hk1
        obtain ⟨ho, hctx⟩ := topLevel_keyval_single_frame st s v hni st1 ht
        have := ih st1 st' hds hp'
        rw [this, ho, hctx]
        simp [specOrder]
    · exact PRes.noConfusion hp'
    · exact PRes.noConfusion hp'


/-- A small document exercising the key order: `[srv]`, `ip = "10.0.0.1"`,
`[log]`. -/
def dsW3 : List Dir :=
  [Dir.table ["srv"],
   Dir.keyval ["ip"] (PVal.prim (Scalar.sStr "10.0.0.1".data) TomlTy.tyString),
   Dir.table ["log"]]

/-- Witness for C8: parsing `[srv]; ip = ...; [log]` succeeds and records
`srv, srv.ip, log` in textual order. -/
theorem claim_C8_witness :
    simpleDoc dsW3 = true ∧
      specOrder initPState.context dsW3 = [["srv"], ["srv", "ip"], ["log"]] ∧
      ∃ st', parseDoc initPState dsW3 = PRes.ok st' ∧
        st'.ordered = initPState.ordered ++ specOrder initPState.context dsW3 :=
  ⟨by decide, by decide,
    ⟨_, rfl, claim_C8_key_order_amended dsW3 initPState _ (by decide) rfl⟩⟩

/-- A document assigning one inline table: `p = { x = 1 }`. -/
def dsInline : List Dir :=
  [Dir.keyval ["p"] (PVal.itab [("x", PVal.prim (Scalar.sInt 1) TomlTy.tyInt)])]

/-- Claim C8 (counterexample): parsing `p = { x = 1 }` succeeds but
records `p.x` BEFORE `p` in the ordered key list, although `p` occurs
first in the source text — so the key list does not follow the
left-to-right textual order of key occurrences on this document. -/
theorem claim_C8_counterexample :
    ∃ st', parseDoc initPState dsInline = PRes.ok st' ∧
      st'.ordered = [["p", "x"], ["p"]] ∧
      st'.ordered ≠ [["p"], ["p", "x"]] :=
  ⟨_, rfl, rfl, by decide⟩

/-! ## Integer conversion (`value` itemInteger case, `numUnderscoresOK`,
`numHasLeadingZero`, and Go's `strconv.ParseInt(s, 0, 64)`)

Embeds the `itemInteger` case of `parser.value` together with its two
guard functions, and a model of `strconv.ParseInt` with base 0 and bit
size 64 following Go's documented semantics (sign, base prefix with the
legacy leading-zero-means-octal rule, underscore placement rules, digit
validity, and the signed 64-bit range).  Integer tokens are embedded as
`List Char`; the (missing) lexer's integer-token shapes are modelled
from the spec with permissive underscore placement inside the digit run,
since underscore validation is the parser's job. -/

/-- `isHexadecimal` from the lexer (Modelled from the spec: the lexer
file of this snapshot era is not part of src; ASCII `0-9a-fA-F`). -/
def isHexadecimal (c : Char) : Bool :=
  ('0' ≤ c && c ≤ '9') || ('a' ≤ c && c ≤ 'f') || ('A' ≤ c && c ≤ 'F')

/-- The loop of `numUnderscoresOK`: `accept` is whether the previous
character may precede an underscore. -/
def nuoLoop (accept : Bool) : List Char → Bool
  | [] => accept
  | r :: rest =>
    if r = '_' && !accept then false
    else nuoLoop (isHexadecimal r) rest

/-- `numUnderscoresOK` from the parser source: special-cases the
nan/inf spellings, then requires every underscore to be preceded by a
hexadecimal character and the string to end in one. -/
def numUnderscoresOK (s : List Char) : Bool :=
  if s = "nan".data ∨ s = "+nan".data ∨ s = "-nan".data ∨ s = "inf".data ∨
      s = "-inf".data ∨ s = "+inf".data then true
  else nuoLoop false s

/-- `numHasLeadingZero` from the parser source: a `0` followed by a digit
(allowing `0x`/`0o`/`0b` since their second character is not a digit), or
a sign followed by `0` with more input after it. -/
def numHasLeadingZero (s : List Char) : Bool :=
  (match s with
   | c0 :: c1 :: _ => c0 = '0' && isDigit c1
   | _ => false) ||
  (match s with
   | c0 :: _c1 :: _ :: _ => (c0 = '-' || c0 = '+') && _c1 = '0'
   | _ => false)

/-- The claim's reading of the underscore rule: every underscore in the
digit run is immediately preceded (`prevDigit`) and immediately followed
by a digit of the base. -/
def usurround (dig : Char → Bool) (prevDigit : Bool) : List Char → Bool
  | [] => true
  | c :: rest =>
    if c = '_' then
      prevDigit &&
        (match rest with
         | d :: _ => dig d
         | [] => false) &&
        usurround dig false rest
    else usurround dig (dig c) rest

/-- Binary digits. -/
def binDigit (c : Char) : Bool := c = '0' || c = '1'

/-- Octal digits. -/
def octDigit (c : Char) : Bool := '0' ≤ c && c ≤ '7'

/-- A digit run as the lexer emits it: a leading digit of the base
followed by digits and underscores in any arrangement. -/
def runShape (dig : Char → Bool) : List Char → Bool
  | [] => false
  | c :: cs => dig c && cs.all (fun x => dig x || x = '_')

/-- Modelled from the spec: the integer-token shapes of the (missing)
lexer — an optionally signed decimal digit run, or an unsigned
`0x`/`0o`/`0b` prefix followed by a digit run of that base.  Underscores
may sit anywhere inside a run (the parser validates their placement). -/
def intToken (s : List Char) : Prop :=
  (∃ sgn run, (sgn = [] ∨ sgn = ['+'] ∨ sgn = ['-']) ∧ s = sgn ++ run ∧
    runShape isDigit run = true) ∨
  (∃ run, s = '0' :: 'x' :: run ∧ runShape isHexadecimal run = true) ∨
  (∃ run, s = '0' :: 'o' :: run ∧ runShape octDigit run = true) ∨
  (∃ run, s = '0' :: 'b' :: run ∧ runShape binDigit run = true)

/-- The claim's underscore condition applied to a token: the digit run
(after sign or base prefix) passes `usurround` for the declared base's
digit set. -/
def tokUnderscoresOK (s : List Char) : Bool :=
  match s with
  | c0 :: c1 :: r =>
    if c0 = '0' then
      if c1 = 'x' then usurround isHexadecimal false r
      else if c1 = 'o' then usurround octDigit false r
      else if c1 = 'b' then usurround binDigit false r
      else usurround isDigit false (c0 :: c1 :: r)
    else if c0 = '+' ∨ c0 = '-' then usurround isDigit false (c1 :: r)
    else usurround isDigit false (c0 :: c1 :: r)
  | c0 :: [] =>
    if c0 = '+' ∨ c0 = '-' then usurround isDigit false []
    else usurround isDigit false [c0]
  | [] => usurround isDigit false []

/-- Excludes the decimal tokens starting `0_`, which slip past
`numHasLeadingZero` (its second-character test wants a digit) and are
then parsed by Go's base-0 rules as OCTAL rather than decimal. -/
def noOctalSlip (s : List Char) : Bool :=
  match s with
  | c0 :: c1 :: _ => !(c0 = '0' && c1 = '_')
  | _ => true

/-- The claim's "leading zero (other than 0 itself)" shape: a decimal
token whose digits begin with `0` and continue, or a signed token whose
digit part begins with `0` and continues; the `0x`/`0o`/`0b` prefixes are
not leading zeroes. -/
def leadZeroTok (s : List Char) : Bool :=
  match s with
  | c0 :: c1 :: r =>
    if c0 = '0' then !(c1 = 'x' || c1 = 'o' || c1 = 'b')
    else if (c0 = '+' ∨ c0 = '-') ∧ c1 = '0' then !r.isEmpty
    else false
  | _ => false

/-- Value of a digit character per Go's strconv (letters count from 10). -/
def digVal (c : Char) : Option Nat :=
  if '0' ≤ c && c ≤ '9' then some (c.toNat - '0'.toNat)
  else if 'a' ≤ c && c ≤ 'z' then some (c.toNat - 'a'.toNat + 10)
  else if 'A' ≤ c && c ≤ 'Z' then some (c.toNat - 'A'.toNat + 10)
  else none

/-- Horner accumulation of a digit-and-underscore run in a base,
starting from `n`. -/
def valAcc (base : Nat) (n : Nat) (l : List Char) : Nat :=
  l.foldl (fun n c => if c = '_' then n else n * base + (digVal c).getD 0) n

/-- Mathematical value of a digit-and-underscore run in a base. -/
def digitsVal (base : Nat) (l : List Char) : Nat :=
  valAcc base 0 l

/-- The value of an integer token in its declared base (sign applied,
underscores ignored): what the claim means by "parsed in its declared
base". -/
def tokVal (s : List Char) : Int :=
  match s with
  | c0 :: c1 :: r =>
    if c0 = '0' then
      if c1 = 'x' then (digitsVal 16 r : Int)
      else if c1 = 'o' then (digitsVal 8 r : Int)
      else if c1 = 'b' then (digitsVal 2 r : Int)
      else (digitsVal 10 (c0 :: c1 :: r) : Int)
    else if c0 = '+' then (digitsVal 10 (c1 :: r) : Int)
    else if c0 = '-' then -(digitsVal 10 (c1 :: r) : Int)
    else (digitsVal 10 (c0 :: c1 :: r) : Int)
  | c0 :: [] =>
    if c0 = '+' then 0
    else if c0 = '-' then 0
    else (digitsVal 10 [c0] : Int)
  | [] => 0

/-- Result of Go's `ParseUint` digit loop. -/
inductive URes where
  | uok (n : Nat) (us : Bool)
  | urange
  | usyntax
  deriving Repr, DecidableEq

/-- The digit loop of Go's `ParseUint`: underscores are skipped (setting
the `us` flag), digits must be below the base, and the running value is
range-checked against `maxVal` exactly as Go does (cutoff before the
multiply, overflow after the add). -/
def puLoop (base maxVal : Nat) : List Char → Nat → Bool → URes
  | [], n, us => URes.uok n us
  | c :: rest, n, us =>
    if c = '_' then puLoop base maxVal rest n true
    else
      match digVal c with
      | none => URes.usyntax
      | some d =>
        if d ≥ base then URes.usyntax
        else if n ≥ maxVal / base + 1 then URes.urange
        else if n * base + d > maxVal then URes.urange
        else puLoop base maxVal rest (n * base + d) us

/-- Digit class used by Go's `underscoreOK` (decimal digits, plus hex
letters when after an `0x` prefix). -/
def uokDigit (hex : Bool) (c : Char) : Bool :=
  ('0' ≤ c && c ≤ '9') ||
    (hex && (('a' ≤ c && c ≤ 'f') || ('A' ≤ c && c ≤ 'F')))

/-- The scanning loop of Go's `underscoreOK`: `saw` is `'0'` after a
digit (or base prefix), `'_'` after an underscore, `'!'` after anything
else, `'^'` at the start. -/
def uokLoop (hex : Bool) (saw : Char) : List Char → Bool
  | [] => saw ≠ '_'
  | c :: rest =>
    if uokDigit hex c then uokLoop hex '0' rest
    else if c = '_' then saw = '0' && uokLoop hex '_' rest
    else if saw = '_' then false
    else uokLoop hex '!' rest

/-- The body of Go's `underscoreOK` after the optional sign: recognise a
base prefix (which counts as a digit), then scan. -/
def uokBody (s1 : List Char) : Bool :=
  match s1 with
  | c0 :: c1 :: r =>
    if c0 = '0' ∧ (c1 = 'b' ∨ c1 = 'B' ∨ c1 = 'o' ∨ c1 = 'O' ∨
        c1 = 'x' ∨ c1 = 'X') then
      uokLoop (c1 = 'x' ∨ c1 = 'X') '0' r
    else uokLoop false '^' (c0 :: c1 :: r)
  | r => uokLoop false '^' r

/-- Go's `strconv.underscoreOK`: underscores may appear only between
digits or between a base prefix and a digit. -/
def underscoreOKGo (s : List Char) : Bool :=
  uokBody (match s with
    | c :: r => if c = '+' ∨ c = '-' then r else c :: r
    | [] => [])

/-- The tail of Go's `ParseUint` after base detection: run the digit
loop, then reject misplaced underscores against the original string. -/
def pugFinish (s0 : List Char) (bd : Nat × List Char) : URes :=
  match puLoop bd.1 (2 ^ 64 - 1) bd.2 0 false with
  | URes.uok n us =>
    if us && !underscoreOKGo s0 then URes.usyntax
    else URes.uok n us
  | r => r

/-- Go's `strconv.ParseUint(s, 0, 64)` (base detected from the string;
a bare leading zero means octal), per Go's documented semantics. -/
def parseUintGo (s : List Char) : URes :=
  match s with
  | [] => URes.usyntax
  | c0 :: rest =>
    pugFinish (c0 :: rest)
      (if c0 = '0' then
        match rest with
        | c1 :: r =>
          if (c1 = 'b' ∨ c1 = 'B') ∧ r ≠ [] then (2, r)
          else if (c1 = 'o' ∨ c1 = 'O') ∧ r ≠ [] then (8, r)
          else if (c1 = 'x' ∨ c1 = 'X') ∧ r ≠ [] then (16, r)
          else (8, rest)
        | [] => (8, [])
      else (10, c0 :: rest))

/-- Result classification of `strconv.ParseInt`. -/
inductive IntRes where
  | ok (n : Int)
  | rangeE
  | syntaxE
  deriving Repr, DecidableEq

/-- The tail of Go's `ParseInt` after the sign is picked off: convert
unsigned, then apply the signed 64-bit range check. -/
def pigFinish (neg : Bool) (u : List Char) : IntRes :=
  match parseUintGo u with
  | URes.usyntax => IntRes.syntaxE
  | URes.urange => IntRes.rangeE
  | URes.uok n _ =>
    if !neg && n ≥ 2 ^ 63 then IntRes.rangeE
    else if neg && n > 2 ^ 63 then IntRes.rangeE
    else IntRes.ok (if neg then -(n : Int) else (n : Int))

/-- Go's `strconv.ParseInt(s, 0, 64)`: optional sign, then `ParseUint`,
then the signed 64-bit range check. -/
def parseIntGo (s : List Char) : IntRes :=
  match s with
  | [] => IntRes.syntaxE
  | c0 :: rest =>
    pigFinish (c0 = '-') (if c0 = '+' ∨ c0 = '-' then rest else c0 :: rest)

/-- Result of the `itemInteger` case of `value`: a converted value, a
recovered `ParseError` message, or a `p.bug` crash. -/
inductive ConvRes where
  | ok (n : Int)
  | err (msg : String)
  | bug
  deriving Repr, DecidableEq

/-- The underscore `ParseError` message (`%q` quotes with `"`). -/
def underscoreErrMsg (s : List Char) : String :=
  "Invalid integer \"" ++ String.mk s ++
    "\": underscores must be surrounded by digits"

/-- The leading-zero `ParseError` message. -/
def leadZeroErrMsg (s : List Char) : String :=
  "Invalid integer \"" ++ String.mk s ++ "\": cannot have leading zeroes"

/-- The out-of-range `ParseError` message. -/
def rangeErrMsg (s : List Char) : String :=
  "Integer \x27" ++ String.mk s ++
    "\x27 is out of the range of 64-bit signed integers."

/-- The `itemInteger` case of `parser.value`: guard underscores, guard
leading zeroes, then `strconv.ParseInt(it.val, 0, 64)`; a range failure
is a user error, any other failure is a `p.bug`. -/
def convInteger (s : List Char) : ConvRes :=
  if !numUnderscoresOK s then ConvRes.err (underscoreErrMsg s)
  else if numHasLeadingZero s then ConvRes.err (leadZeroErrMsg s)
  else
    match parseIntGo s with
    | IntRes.ok n => ConvRes.ok n
    | IntRes.rangeE => ConvRes.err (rangeErrMsg s)
    | IntRes.syntaxE => ConvRes.bug

theorem isDigit_isHexadecimal (c : Char) (h : isDigit c = true) :
    isHexadecimal c = true := by
  simp [isDigit, Bool.and_eq_true, decide_eq_true_eq] at h
  simp [isHexadecimal, Bool.and_eq_true, Bool.or_eq_true, decide_eq_true_eq]
  exact Or.inl (Or.inl h)

theorem octDigit_isHexadecimal (c : Char) (h : octDigit c = true) :
    isHexadecimal c = true := by
  simp [octDigit, Bool.and_eq_true, decide_eq_true_eq] at h
  simp [isHexadecimal, Bool.and_eq_true, Bool.or_eq_true, decide_eq_true_eq]
  refine Or.inl (Or.inl ⟨h.1, ?_⟩)
  have h2 : c.toNat ≤ ('7' : Char).toNat := h.2
  have h7 : ('7' : Char).toNat = 55 := by decide
  have h9 : ('9' : Char).toNat = 57 := by decide
  show c.toNat ≤ ('9' : Char).toNat
  omega

theorem binDigit_isHexadecimal (c : Char) (h : binDigit c = true) :
    isHexadecimal c = true := by
  simp [binDigit, Bool.or_eq_true, decide_eq_true_eq] at h
  rcases h with h | h <;> subst h <;> decide

theorem dig_ne_underscore (dig : Char → Bool)
    (hdig : ∀ c, dig c = true → isHexadecimal c = true) :
    dig '_' = false := by
  rcases hu : dig '_' with _ | _
  · rfl
  · have := hdig '_' hu
    simp [isHexadecimal] at this

theorem nuoLoop_cons_ne (c : Char) (rest : List Char) (a : Bool)
    (hc : ¬ c = '_') :
    nuoLoop a (c :: rest) = nuoLoop (isHexadecimal c) rest := by
  simp [nuoLoop, hc]

theorem nuoLoop_cons_us_true (rest : List Char) :
    nuoLoop true ('_' :: rest) = nuoLoop false rest := by
  simp [nuoLoop, show isHexadecimal '_' = false from by decide]

theorem nuoLoop_cons_us_false (rest : List Char) :
    nuoLoop false ('_' :: rest) = false := by
  simp [nuoLoop]

theorem usurround_cons_ne (dig : Char → Bool) (c : Char) (rest : List Char)
    (a : Bool) (hc : ¬ c = '_') :
    usurround dig a (c :: rest) = usurround dig (dig c) rest := by
  simp [usurround, hc]

theorem usurround_cons_us_nil (dig : Char → Bool) (a : Bool) :
    usurround dig a ['_'] = false := by
  simp [usurround]

theorem usurround_cons_us_cons (dig : Char → Bool) (a : Bool) (d : Char)
    (r2 : List Char) :
    usurround dig a ('_' :: d :: r2) =
      (a && dig d && usurround dig false (d :: r2)) := by
  simp [usurround]

/-- The parser's underscore scan agrees with the claim's "surrounded by
digits" reading on digit runs: `nuoLoop` entered in the
just-saw-a-digit state equals `usurround` in the same state. -/
theorem nuoLoop_eq_usurround (dig : Char → Bool)
    (hdig : ∀ c, dig c = true → isHexadecimal c = true) :
    ∀ rs : List Char, rs.all (fun c => dig c || c = '_') = true →
      nuoLoop true rs = usurround dig true rs := by
  intro rs
  induction rs with
  | nil => intro _; rfl
  | cons c rest ih =>
    intro halpha
    simp only [List.all_cons, Bool.and_eq_true] at halpha
    obtain ⟨hc, hrest⟩ := halpha
    by_cases hcu : c = '_'
    · subst hcu
      cases rest with
      | nil =>
        rw [nuoLoop_cons_us_true, usurround_cons_us_nil]
        rfl
      | cons d r2 =>
        rw [nuoLoop_cons_us_true, usurround_cons_us_cons]
        simp only [List.all_cons, Bool.and_eq_true] at hrest
        obtain ⟨hd, hr2⟩ := hrest
        by_cases hdu : d = '_'
        · subst hdu
          rw [nuoLoop_cons_us_false, dig_ne_underscore dig hdig]
          simp
        · have hdd : dig d = true := by
            rcases Bool.or_eq_true _ _ |>.mp hd with h | h
            · exact h
            · exact absurd (by simpa [decide_eq_true_eq] using h) hdu
          have hkey : nuoLoop true r2 = usurround dig true r2 := by
            have hih := ih (by simp [List.all_cons, hd, hr2])
            rwa [nuoLoop_cons_ne d r2 true hdu, hdig d hdd,
              usurround_cons_ne dig d r2 true hdu, hdd] at hih
          rw [nuoLoop_cons_ne d r2 false hdu, hdig d hdd,
            usurround_cons_ne dig d r2 false hdu, hdd]
          simpa using hkey
    · have hcd : dig c = true := by
        rcases Bool.or_eq_true _ _ |>.mp hc with h | h
        · exact h
        · exact absurd (by simpa [decide_eq_true_eq] using h) hcu
      rw [nuoLoop_cons_ne c rest true hcu, hdig c hcd,
        usurround_cons_ne dig c rest true hcu, hcd]
      exact ih hrest

theorem digVal_isDigit (c : Char) (h : isDigit c = true) :
    ∃ d, digVal c = some d ∧ d < 10 := by
  have h' := h
  simp only [isDigit, Bool.and_eq_true, decide_eq_true_eq] at h'
  have h1 : ('0' : Char).toNat ≤ c.toNat := h'.1
  have h2 : c.toNat ≤ ('9' : Char).toNat := h'.2
  have e0 : ('0' : Char).toNat = 48 := by decide
  have e9 : ('9' : Char).toNat = 57 := by decide
  refine ⟨c.toNat - ('0' : Char).toNat, ?_, by omega⟩
  unfold digVal
  rw [if_pos (show (decide ('0' ≤ c) && decide (c ≤ '9')) = true by
    simp only [Bool.and_eq_true, decide_eq_true_eq]
    exact ⟨h'.1, h'.2⟩)]

theorem digVal_isHexadecimal (c : Char) (h : isHexadecimal c = true) :
    ∃ d, digVal c = some d ∧ d < 16 := by
  simp only [isHexadecimal, Bool.or_eq_true, Bool.and_eq_true,
    decide_eq_true_eq] at h
  rcases h with (⟨h1, h2⟩ | ⟨h1, h2⟩) | ⟨h1, h2⟩
  · obtain ⟨d, hd, hlt⟩ := digVal_isDigit c
      (by simp only [isDigit, Bool.and_eq_true, decide_eq_true_eq]
          exact ⟨h1, h2⟩)
    exact ⟨d, hd, by omega⟩
  · have h1' : ('a' : Char).toNat ≤ c.toNat := h1
    have h2' : c.toNat ≤ ('f' : Char).toNat := h2
    have ea : ('a' : Char).toNat = 97 := by decide
    have ef : ('f' : Char).toNat = 102 := by decide
    have e9 : ('9' : Char).toNat = 57 := by decide
    have ez : ('z' : Char).toNat = 122 := by decide
    refine ⟨c.toNat - ('a' : Char).toNat + 10, ?_, by omega⟩
    unfold digVal
    rw [if_neg, if_pos]
    · simp only [Bool.and_eq_true, decide_eq_true_eq]
      refine ⟨h1, ?_⟩
      show c.toNat ≤ ('z' : Char).toNat
      omega
    · simp only [Bool.and_eq_true, decide_eq_true_eq, not_and]
      intro _
      intro hc9
      have : c.toNat ≤ ('9' : Char).toNat := hc9
      omega
  · have h1' : ('A' : Char).toNat ≤ c.toNat := h1
    have h2' : c.toNat ≤ ('F' : Char).toNat := h2
    have eA : ('A' : Char).toNat = 65 := by decide
    have eF : ('F' : Char).toNat = 70 := by decide
    have e9 : ('9' : Char).toNat = 57 := by decide
    have ea : ('a' : Char).toNat = 97 := by decide
    have eZ : ('Z' : Char).toNat = 90 := by decide
    refine ⟨c.toNat - ('A' : Char).toNat + 10, ?_, by omega⟩
    unfold digVal
    rw [if_neg, if_neg, if_pos]
    · simp only [Bool.and_eq_true, decide_eq_true_eq]
      refine ⟨h1, ?_⟩
      show c.toNat ≤ ('Z' : Char).toNat
      omega
    · simp only [Bool.and_eq_true, decide_eq_true_eq, not_and]
      intro hca
      have : ('a' : Char).toNat ≤ c.toNat := hca
      omega
    · simp only [Bool.and_eq_true, decide_eq_true_eq, not_and]
      intro _
      intro hc9
      have : c.toNat ≤ ('9' : Char).toNat := hc9
      omega

theorem digVal_octDigit (c : Char) (h : octDigit c = true) :
    ∃ d, digVal c = some d ∧ d < 8 := by
  have h' := h
  simp only [octDigit, Bool.and_eq_true, decide_eq_true_eq] at h'
  have h1 : ('0' : Char).toNat ≤ c.toNat := h'.1
  have h2 : c.toNat ≤ ('7' : Char).toNat := h'.2
  have e0 : ('0' : Char).toNat = 48 := by decide
  have e7 : ('7' : Char).toNat = 55 := by decide
  have e9 : ('9' : Char).toNat = 57 := by decide
  refine ⟨c.toNat - ('0' : Char).toNat, ?_, by omega⟩
  unfold digVal
  rw [if_pos]
  simp only [Bool.and_eq_true, decide_eq_true_eq]
  refine ⟨h'.1, ?_⟩
  show c.toNat ≤ ('9' : Char).toNat
  omega

theorem digVal_binDigit (c : Char) (h : binDigit c = true) :
    ∃ d, digVal c = some d ∧ d < 2 := by
  simp only [binDigit, Bool.or_eq_true, decide_eq_true_eq] at h
  rcases h with h | h <;> subst h
  · exact ⟨0, by decide, by omega⟩
  · exact ⟨1, by decide, by omega⟩

theorem valAcc_nil (base n : Nat) : valAcc base n [] = n := rfl

theorem valAcc_cons (base n : Nat) (c : Char) (l : List Char) :
    valAcc base n (c :: l) =
      valAcc base (if c = '_' then n else n * base + (digVal c).getD 0) l :=
  rfl

theorem valAcc_mono (base : Nat) (hb : 1 ≤ base) :
    ∀ l n, n ≤ valAcc base n l := by
  intro l
  induction l with
  | nil => intro n; exact Nat.le_refl n
  | cons c rest ih =>
    intro n
    rw [valAcc_cons]
    refine Nat.le_trans ?_ (ih _)
    by_cases hc : c = '_'
    · rw [if_pos hc]
    · rw [if_neg hc]
      have h1 : n * 1 ≤ n * base := Nat.mul_le_mul (Nat.le_refl n) hb
      rw [Nat.mul_one] at h1
      omega

/-- Correctness of the `ParseUint` digit loop: on a run of valid digits
and underscores it computes the Horner value, returning a range error
exactly when that value exceeds `maxVal`. -/
theorem puLoop_spec (base maxVal : Nat) (hb : 2 ≤ base) (dig : Char → Bool)
    (hdv : ∀ c, dig c = true → ∃ d, digVal c = some d ∧ d < base) :
    ∀ l : List Char, l.all (fun c => dig c || c = '_') = true →
    ∀ n us, n ≤ maxVal →
      (valAcc base n l ≤ maxVal →
        ∃ usf, puLoop base maxVal l n us = URes.uok (valAcc base n l) usf) ∧
      (maxVal < valAcc base n l →
        puLoop base maxVal l n us = URes.urange) := by
  intro l
  induction l with
  | nil =>
    intro _ n us hn
    constructor
    · intro _
      exact ⟨us, rfl⟩
    · intro hgt
      rw [valAcc_nil] at hgt
      omega
  | cons c rest ih =>
    intro hall n us hn
    simp only [List.all_cons, Bool.and_eq_true] at hall
    obtain ⟨hc, hrest⟩ := hall
    by_cases hcu : c = '_'
    · subst hcu
      rw [valAcc_cons, if_pos rfl]
      have hstep : puLoop base maxVal ('_' :: rest) n us =
          puLoop base maxVal rest n true := rfl
      rw [hstep]
      exact ih hrest n true hn
    · have hdig : dig c = true := by
        rcases Bool.or_eq_true _ _ |>.mp hc with h | h
        · exact h
        · exact absurd (by simpa [decide_eq_true_eq] using h) hcu
      obtain ⟨d, hdv1, hdlt⟩ := hdv c hdig
      rw [valAcc_cons, if_neg hcu, hdv1]
      simp only [Option.getD_some]
      have hstep : puLoop base maxVal (c :: rest) n us =
          (if n ≥ maxVal / base + 1 then URes.urange
           else if n * base + d > maxVal then URes.urange
           else puLoop base maxVal rest (n * base + d) us) := by
        simp only [puLoop]
        rw [if_neg hcu, hdv1]
        dsimp only
        rw [if_neg (show ¬ d ≥ base by omega)]
      rw [hstep]
      by_cases hcut : n ≥ maxVal / base + 1
      · rw [if_pos hcut]
        have hb0 : 0 < base := by omega
        have h1 : base * (maxVal / base) + maxVal % base = maxVal :=
          Nat.div_add_mod maxVal base
        have h2 : maxVal % base < base := Nat.mod_lt _ hb0
        have h3 : maxVal < base * (maxVal / base + 1) := by
          rw [Nat.mul_add, Nat.mul_one]
          omega
        have h4 : base * (maxVal / base + 1) ≤ base * n :=
          Nat.mul_le_mul_left base hcut
        have h5 : maxVal < n * base := by
          rw [Nat.mul_comm n base]
          omega
        have h6 : maxVal < valAcc base (n * base + d) rest :=
          Nat.lt_of_lt_of_le (by omega) (valAcc_mono base (by omega) rest _)
        constructor
        · intro hle
          exact absurd h6 (Nat.not_lt.mpr hle)
        · intro _
          rfl
      · rw [if_neg hcut]
        by_cases hov : n * base + d > maxVal
        · rw [if_pos hov]
          have h6 : maxVal < valAcc base (n * base + d) rest :=
            Nat.lt_of_lt_of_le (by omega) (valAcc_mono base (by omega) rest _)
          constructor
          · intro hle
            exact absurd h6 (Nat.not_lt.mpr hle)
          · intro _
            rfl
        · rw [if_neg hov]
          exact ih hrest (n * base + d) us (by omega)

theorem uokDigit_underscore (hex : Bool) : uokDigit hex '_' = false := by
  cases hex <;> decide

theorem uokLoop_cons_digit (hex : Bool) (saw c : Char) (rest : List Char)
    (h : uokDigit hex c = true) :
    uokLoop hex saw (c :: rest) = uokLoop hex '0' rest := by
  simp only [uokLoop]
  rw [if_pos h]

theorem uokLoop_cons_us (hex : Bool) (saw : Char) (rest : List Char) :
    uokLoop hex saw ('_' :: rest) =
      (decide (saw = '0') && uokLoop hex '_' rest) := by
  simp only [uokLoop]
  rw [if_neg (show ¬ uokDigit hex '_' = true by
        rw [uokDigit_underscore]
        exact Bool.false_ne_true)]
  rw [if_pos trivial]

theorem isDigit_uokDigit (hex : Bool) (c : Char) (h : isDigit c = true) :
    uokDigit hex c = true := by
  simp only [isDigit, Bool.and_eq_true, decide_eq_true_eq] at h
  simp only [uokDigit, Bool.or_eq_true, Bool.and_eq_true, decide_eq_true_eq]
  exact Or.inl ⟨h.1, h.2⟩

theorem octDigit_uokDigit (hex : Bool) (c : Char) (h : octDigit c = true) :
    uokDigit hex c = true := by
  simp only [octDigit, Bool.and_eq_true, decide_eq_true_eq] at h
  have h1 : ('0' : Char).toNat ≤ c.toNat := h.1
  have h2 : c.toNat ≤ ('7' : Char).toNat := h.2
  have e7 : ('7' : Char).toNat = 55 := by decide
  have e9 : ('9' : Char).toNat = 57 := by decide
  simp only [uokDigit, Bool.or_eq_true, Bool.and_eq_true, decide_eq_true_eq]
  refine Or.inl ⟨h.1, ?_⟩
  show c.toNat ≤ ('9' : Char).toNat
  omega

theorem binDigit_uokDigit (hex : Bool) (c : Char) (h : binDigit c = true) :
    uokDigit hex c = true := by
  simp only [binDigit, Bool.or_eq_true, decide_eq_true_eq] at h
  rcases h with h | h <;> subst h <;> cases hex <;> decide

theorem isHexadecimal_uokDigit (c : Char) (h : isHexadecimal c = true) :
    uokDigit true c = true := by
  simp only [isHexadecimal, Bool.or_eq_true, Bool.and_eq_true,
    decide_eq_true_eq] at h
  simp only [uokDigit, Bool.or_eq_true, Bool.and_eq_true, true_and,
    decide_eq_true_eq]
  tauto

/-- Go's `underscoreOK` scan accepts any run whose underscores are
surrounded by digits, entered in the just-saw-a-digit state. -/
theorem uok_of_usurround (hex : Bool) (dig : Char → Bool)
    (hd : ∀ c, dig c = true → uokDigit hex c = true) :
    ∀ l : List Char, l.all (fun c => dig c || c = '_') = true →
      usurround dig true l = true → uokLoop hex '0' l = true := by
  intro l
  induction l with
  | nil =>
    intro _ _
    rfl
  | cons c rest ih =>
    intro hall hus
    simp only [List.all_cons, Bool.and_eq_true] at hall
    obtain ⟨hc, hrest⟩ := hall
    by_cases hcu : c = '_'
    · subst hcu
      have hdu : dig '_' = false := by
        rcases he : dig '_' with _ | _
        · rfl
        · have := hd '_' he
          rw [uokDigit_underscore] at this
          cases this
      rcases rest with _ | ⟨d, r2⟩
      · rw [usurround_cons_us_nil] at hus
        cases hus
      · rw [usurround_cons_us_cons] at hus
        simp only [Bool.and_eq_true, true_and] at hus
        obtain ⟨hdd, husr⟩ := hus
        have hdne : ¬ d = '_' := by
          intro he
          rw [he, hdu] at hdd
          cases hdd
        have hustrue : usurround dig true (d :: r2) = true := by
          rw [usurround_cons_ne dig d r2 true hdne]
          rw [usurround_cons_ne dig d r2 false hdne] at husr
          exact husr
        have ihres := ih hrest hustrue
        rw [uokLoop_cons_digit hex '0' d r2 (hd d hdd)] at ihres
        rw [uokLoop_cons_us hex '0' (d :: r2)]
        rw [uokLoop_cons_digit hex '_' d r2 (hd d hdd), ihres]
        rfl
    · have hdig : dig c = true := by
        rcases Bool.or_eq_true _ _ |>.mp hc with h | h
        · exact h
        · exact absurd (by simpa [decide_eq_true_eq] using h) hcu
      rw [usurround_cons_ne dig c rest true hcu, hdig] at hus
      rw [uokLoop_cons_digit hex '0' c rest (hd c hdig)]
      exact ih hrest hus

theorem numUnderscoresOK_not_special (s : List Char)
    (h : ¬(s = "nan".data ∨ s = "+nan".data ∨ s = "-nan".data ∨
        s = "inf".data ∨ s = "-inf".data ∨ s = "+inf".data)) :
    numUnderscoresOK s = nuoLoop false s := by
  unfold numUnderscoresOK
  rw [if_neg h]

theorem not_special_head_digit (d : Char) (rs : List Char)
    (hd : isDigit d = true) :
    ¬(d :: rs = "nan".data ∨ d :: rs = "+nan".data ∨ d :: rs = "-nan".data ∨
      d :: rs = "inf".data ∨ d :: rs = "-inf".data ∨
      d :: rs = "+inf".data) := by
  have e1 : "nan".data = 'n' :: 'a' :: 'n' :: [] := rfl
  have e2 : "+nan".data = '+' :: 'n' :: 'a' :: 'n' :: [] := rfl
  have e3 : "-nan".data = '-' :: 'n' :: 'a' :: 'n' :: [] := rfl
  have e4 : "inf".data = 'i' :: 'n' :: 'f' :: [] := rfl
  have e5 : "-inf".data = '-' :: 'i' :: 'n' :: 'f' :: [] := rfl
  have e6 : "+inf".data = '+' :: 'i' :: 'n' :: 'f' :: [] := rfl
  rintro (h | h | h | h | h | h)
  · rw [e1] at h
    injection h with h1 _
    rw [h1] at hd
    exact absurd hd (by decide)
  · rw [e2] at h
    injection h with h1 _
    rw [h1] at hd
    exact absurd hd (by decide)
  · rw [e3] at h
    injection h with h1 _
    rw [h1] at hd
    exact absurd hd (by decide)
  · rw [e4] at h
    injection h with h1 _
    rw [h1] at hd
    exact absurd hd (by decide)
  · rw [e5] at h
    injection h with h1 _
    rw [h1] at hd
    exact absurd hd (by decide)
  · rw [e6] at h
    injection h with h1 _
    rw [h1] at hd
    exact absurd hd (by decide)

theorem not_special_sign (sg d : Char) (rs : List Char)
    (hsg : sg = '+' ∨ sg = '-') (hd : isDigit d = true) :
    ¬(sg :: d :: rs = "nan".data ∨ sg :: d :: rs = "+nan".data ∨
      sg :: d :: rs = "-nan".data ∨ sg :: d :: rs = "inf".data ∨
      sg :: d :: rs = "-inf".data ∨ sg :: d :: rs = "+inf".data) := by
  have e1 : "nan".data = 'n' :: 'a' :: 'n' :: [] := rfl
  have e2 : "+nan".data = '+' :: 'n' :: 'a' :: 'n' :: [] := rfl
  have e3 : "-nan".data = '-' :: 'n' :: 'a' :: 'n' :: [] := rfl
  have e4 : "inf".data = 'i' :: 'n' :: 'f' :: [] := rfl
  have e5 : "-inf".data = '-' :: 'i' :: 'n' :: 'f' :: [] := rfl
  have e6 : "+inf".data = '+' :: 'i' :: 'n' :: 'f' :: [] := rfl
  rintro (h | h | h | h | h | h)
  · rw [e1] at h
    injection h with h1 _
    rcases hsg with hs | hs <;> rw [hs] at h1 <;> exact absurd h1 (by decide)
  · rw [e2] at h
    injection h with _ h2
    injection h2 with h2 _
    rw [h2] at hd
    exact absurd hd (by decide)
  · rw [e3] at h
    injection h with _ h2
    injection h2 with h2 _
    rw [h2] at hd
    exact absurd hd (by decide)
  · rw [e4] at h
    injection h with h1 _
    rcases hsg with hs | hs <;> rw [hs] at h1 <;> exact absurd h1 (by decide)
  · rw [e5] at h
    injection h with _ h2
    injection h2 with h2 _
    rw [h2] at hd
    exact absurd hd (by decide)
  · rw [e6] at h
    injection h with _ h2
    injection h2 with h2 _
    rw [h2] at hd
    exact absurd hd (by decide)

/-- The parser's full-string underscore scan and the claim's
digit-surrounded condition agree on a digit-headed run entered with any
accept states. -/
theorem nuo_usur_run (dig : Char → Bool)
    (hdig : ∀ c, dig c = true → isHexadecimal c = true)
    (d : Char) (rs : List Char) (hd : dig d = true)
    (hall : rs.all (fun c => dig c || c = '_') = true) (a b : Bool) :
    nuoLoop a (d :: rs) = usurround dig b (d :: rs) := by
  have hdu : ¬ d = '_' := by
    intro he
    rw [he, dig_ne_underscore dig hdig] at hd
    cases hd
  rw [nuoLoop_cons_ne d rs a hdu, hdig d hd,
    usurround_cons_ne dig d rs b hdu, hd]
  exact nuoLoop_eq_usurround dig hdig rs hall

theorem isDigit_ne (d k : Char) (hd : isDigit d = true)
    (hk : isDigit k = false) : ¬ d = k := by
  intro he
  rw [he, hk] at hd
  cases hd

theorem runShape_cases (dig : Char → Bool) (run : List Char)
    (h : runShape dig run = true) :
    ∃ d rs, run = d :: rs ∧ dig d = true ∧
      rs.all (fun c => dig c || c = '_') = true := by
  cases run with
  | nil => cases h
  | cons d rs =>
    simp only [runShape, Bool.and_eq_true] at h
    exact ⟨d, rs, rfl, h.1, h.2⟩

theorem tokUnderscoresOK_dec (d : Char) (rs : List Char)
    (hd : isDigit d = true)
    (hall : rs.all (fun c => isDigit c || c = '_') = true)
    (hslip : noOctalSlip (d :: rs) = true) :
    tokUnderscoresOK (d :: rs) = usurround isDigit false (d :: rs) := by
  have hdp : ¬ d = '+' := isDigit_ne d '+' hd (by decide)
  have hdm : ¬ d = '-' := isDigit_ne d '-' hd (by decide)
  have hsig : ¬(d = '+' ∨ d = '-') := fun h => h.elim hdp hdm
  rcases rs with _ | ⟨c1, r⟩
  · simp only [tokUnderscoresOK]
    rw [if_neg hsig]
  · simp only [tokUnderscoresOK]
    by_cases hd0 : d = '0'
    · have hc1 : isDigit c1 = true := by
        by_cases hc1u : c1 = '_'
        · exfalso
          subst hd0
          subst hc1u
          simp [noOctalSlip] at hslip
        · simp only [List.all_cons, Bool.and_eq_true, Bool.or_eq_true] at hall
          rcases hall.1 with h | h
          · exact h
          · exact absurd (by simpa [decide_eq_true_eq] using h) hc1u
      have hc1x : ¬ c1 = 'x' := isDigit_ne c1 'x' hc1 (by decide)
      have hc1o : ¬ c1 = 'o' := isDigit_ne c1 'o' hc1 (by decide)
      have hc1b : ¬ c1 = 'b' := isDigit_ne c1 'b' hc1 (by decide)
      rw [if_pos hd0, if_neg hc1x, if_neg hc1o, if_neg hc1b]
    · rw [if_neg hd0, if_neg hsig]

theorem tokUnderscoresOK_sign (sg d : Char) (rs : List Char)
    (hsg : sg = '+' ∨ sg = '-') (hd : isDigit d = true) :
    tokUnderscoresOK (sg :: d :: rs) = usurround isDigit false (d :: rs) := by
  have hsg0 : ¬ sg = '0' := by
    rcases hsg with h | h <;> subst h <;> decide
  simp only [tokUnderscoresOK]
  rw [if_neg hsg0, if_pos hsg]

/-- On decimal tokens the parser's underscore check equals the claim's
condition. -/
theorem nuo_tok_dec (d : Char) (rs : List Char) (hd : isDigit d = true)
    (hall : rs.all (fun c => isDigit c || c = '_') = true)
    (hslip : noOctalSlip (d :: rs) = true) :
    numUnderscoresOK (d :: rs) = tokUnderscoresOK (d :: rs) := by
  rw [numUnderscoresOK_not_special _ (not_special_head_digit d rs hd)]
  rw [tokUnderscoresOK_dec d rs hd hall hslip]
  exact nuo_usur_run isDigit isDigit_isHexadecimal d rs hd hall false false

/-- On signed decimal tokens the parser's underscore check equals the
claim's condition. -/
theorem nuo_tok_sign (sg d : Char) (rs : List Char)
    (hsg : sg = '+' ∨ sg = '-') (hd : isDigit d = true)
    (hall : rs.all (fun c => isDigit c || c = '_') = true) :
    numUnderscoresOK (sg :: d :: rs) = tokUnderscoresOK (sg :: d :: rs) := by
  rw [numUnderscoresOK_not_special _ (not_special_sign sg d rs hsg hd)]
  rw [tokUnderscoresOK_sign sg d rs hsg hd]
  have e1 : nuoLoop false (sg :: d :: rs) = nuoLoop false (d :: rs) := by
    rcases hsg with h | h <;> subst h <;> rfl
  rw [e1]
  exact nuo_usur_run isDigit isDigit_isHexadecimal d rs hd hall false false

/-- On hexadecimal tokens the parser's underscore check equals the
claim's condition. -/
theorem nuo_tok_hex (d : Char) (rs : List Char)
    (hd : isHexadecimal d = true)
    (hall : rs.all (fun c => isHexadecimal c || c = '_') = true) :
    numUnderscoresOK ('0' :: 'x' :: d :: rs) =
      tokUnderscoresOK ('0' :: 'x' :: d :: rs) := by
  rw [numUnderscoresOK_not_special _
    (not_special_head_digit '0' _ (by decide))]
  have e1 : nuoLoop false ('0' :: 'x' :: d :: rs) =
      nuoLoop false (d :: rs) := rfl
  have e2 : tokUnderscoresOK ('0' :: 'x' :: d :: rs) =
      usurround isHexadecimal false (d :: rs) := rfl
  rw [e1, e2]
  exact nuo_usur_run isHexadecimal (fun c h => h) d rs hd hall false false

/-- On octal tokens the parser's underscore check equals the claim's
condition. -/
theorem nuo_tok_oct (d : Char) (rs : List Char) (hd : octDigit d = true)
    (hall : rs.all (fun c => octDigit c || c = '_') = true) :
    numUnderscoresOK ('0' :: 'o' :: d :: rs) =
      tokUnderscoresOK ('0' :: 'o' :: d :: rs) := by
  rw [numUnderscoresOK_not_special _
    (not_special_head_digit '0' _ (by decide))]
  have e1 : nuoLoop false ('0' :: 'o' :: d :: rs) =
      nuoLoop false (d :: rs) := rfl
  have e2 : tokUnderscoresOK ('0' :: 'o' :: d :: rs) =
      usurround octDigit false (d :: rs) := rfl
  rw [e1, e2]
  exact nuo_usur_run octDigit octDigit_isHexadecimal d rs hd hall false false

/-- On binary tokens the parser's underscore check equals the claim's
condition. -/
theorem nuo_tok_bin (d : Char) (rs : List Char) (hd : binDigit d = true)
    (hall : rs.all (fun c => binDigit c || c = '_') = true) :
    numUnderscoresOK ('0' :: 'b' :: d :: rs) =
      tokUnderscoresOK ('0' :: 'b' :: d :: rs) := by
  rw [numUnderscoresOK_not_special _
    (not_special_head_digit '0' _ (by decide))]
  have e1 : nuoLoop false ('0' :: 'b' :: d :: rs) =
      nuoLoop true (d :: rs) := rfl
  have e2 : tokUnderscoresOK ('0' :: 'b' :: d :: rs) =
      usurround binDigit false (d :: rs) := rfl
  rw [e1, e2]
  exact nuo_usur_run binDigit binDigit_isHexadecimal d rs hd hall true false

/-- On decimal tokens the parser's leading-zero check equals the claim's
"leading zero (other than 0 itself)" shape. -/
theorem lz_dec (d : Char) (rs : List Char) (hd : isDigit d = true)
    (hall : rs.all (fun c => isDigit c || c = '_') = true)
    (hslip : noOctalSlip (d :: rs) = true) :
    numHasLeadingZero (d :: rs) = leadZeroTok (d :: rs) := by
  have hdp : ¬ d = '+' := isDigit_ne d '+' hd (by decide)
  have hdm : ¬ d = '-' := isDigit_ne d '-' hd (by decide)
  rcases rs with _ | ⟨c1, r⟩
  · simp [numHasLeadingZero, leadZeroTok]
  · by_cases hd0 : d = '0'
    · subst hd0
      have hc1 : isDigit c1 = true := by
        by_cases hc1u : c1 = '_'
        · exfalso
          subst hc1u
          simp [noOctalSlip] at hslip
        · simp only [List.all_cons, Bool.and_eq_true, Bool.or_eq_true] at hall
          rcases hall.1 with h | h
          · exact h
          · exact absurd (by simpa [decide_eq_true_eq] using h) hc1u
      have hc1x : ¬ c1 = 'x' := isDigit_ne c1 'x' hc1 (by decide)
      have hc1o : ¬ c1 = 'o' := isDigit_ne c1 'o' hc1 (by decide)
      have hc1b : ¬ c1 = 'b' := isDigit_ne c1 'b' hc1 (by decide)
      simp [numHasLeadingZero, leadZeroTok, hc1, hc1x, hc1o, hc1b]
    · rcases r with _ | ⟨e2, r3⟩ <;>
        simp [numHasLeadingZero, leadZeroTok, hd0, hdp, hdm]

/-- On signed decimal tokens the parser's leading-zero check equals the
claim's shape. -/
theorem lz_sign (sg d : Char) (rs : List Char) (hsg : sg = '+' ∨ sg = '-')
    (hd : isDigit d = true) :
    numHasLeadingZero (sg :: d :: rs) = leadZeroTok (sg :: d :: rs) := by
  rcases hsg with h | h <;> subst h <;>
    rcases rs with _ | ⟨e2, r3⟩ <;>
      by_cases hd0 : d = '0' <;>
        simp [numHasLeadingZero, leadZeroTok, hd0]

theorem tokVal_dec (d : Char) (rs : List Char) (hd : isDigit d = true)
    (hd0 : ¬ d = '0') :
    tokVal (d :: rs) = (digitsVal 10 (d :: rs) : Int) := by
  have hdp : ¬ d = '+' := isDigit_ne d '+' hd (by decide)
  have hdm : ¬ d = '-' := isDigit_ne d '-' hd (by decide)
  rcases rs with _ | ⟨c1, r⟩
  · simp only [tokVal]
    rw [if_neg hdp, if_neg hdm]
  · simp only [tokVal]
    rw [if_neg hd0, if_neg hdp, if_neg hdm]

/-- `pugFinish` on a valid digit run with well-placed underscores:
Horner value on success, range error above `2^64 - 1`. -/
theorem pugFinish_spec (s0 : List Char) (base : Nat) (hb : 2 ≤ base)
    (dig : Char → Bool)
    (hdv : ∀ c, dig c = true → ∃ d, digVal c = some d ∧ d < base)
    (l : List Char) (hall : l.all (fun c => dig c || c = '_') = true)
    (huok : underscoreOKGo s0 = true) :
    (digitsVal base l ≤ 2 ^ 64 - 1 →
      ∃ usf, pugFinish s0 (base, l) = URes.uok (digitsVal base l) usf) ∧
    (2 ^ 64 - 1 < digitsVal base l →
      pugFinish s0 (base, l) = URes.urange) := by
  have hspec := puLoop_spec base (2 ^ 64 - 1) hb dig hdv l hall 0 false
    (Nat.zero_le _)
  have hdv0 : digitsVal base l = valAcc base 0 l := rfl
  constructor
  · intro hle
    rw [hdv0] at hle ⊢
    obtain ⟨usf, hok⟩ := hspec.1 hle
    refine ⟨usf, ?_⟩
    unfold pugFinish
    dsimp only
    rw [hok]
    dsimp only
    rw [huok]
    simp
  · intro hgt
    rw [hdv0] at hgt
    have hur := hspec.2 hgt
    unfold pugFinish
    dsimp only
    rw [hur]

/-- The non-negative `ParseInt` path on a valid digit run: the value if
below `2^63`, a range error otherwise. -/
theorem pigFalse_spec (s : List Char) (base : Nat) (l : List Char)
    (hpu : parseUintGo s = pugFinish s (base, l))
    (hb : 2 ≤ base) (dig : Char → Bool)
    (hdv : ∀ c, dig c = true → ∃ d, digVal c = some d ∧ d < base)
    (hall : l.all (fun c => dig c || c = '_') = true)
    (huok : underscoreOKGo s = true) :
    ((digitsVal base l : Int) < 2 ^ 63 →
      pigFinish false s = IntRes.ok ((digitsVal base l : Nat) : Int)) ∧
    ((2 : Int) ^ 63 ≤ (digitsVal base l : Int) →
      pigFinish false s = IntRes.rangeE) := by
  have hspec := pugFinish_spec s base hb dig hdv l hall huok
  have e63 : (2 : Nat) ^ 63 = 9223372036854775808 := by norm_num
  have e64 : (2 : Nat) ^ 64 - 1 = 18446744073709551615 := by norm_num
  constructor
  · intro hlt
    have hltn : digitsVal base l < 2 ^ 63 := by exact_mod_cast hlt
    obtain ⟨usf, hok⟩ := hspec.1 (by rw [e64]; rw [e63] at hltn; omega)
    unfold pigFinish
    rw [hpu, hok]
    dsimp only
    rw [if_neg (show ¬((!false && decide (digitsVal base l ≥ 2 ^ 63)) = true) by
      simp only [Bool.not_false, Bool.true_and, decide_eq_true_eq]
      omega)]
    rw [if_neg (show ¬((false && decide (digitsVal base l > 2 ^ 63)) = true) by
      simp)]
    rfl
  · intro hge
    have hgen : (2 : Nat) ^ 63 ≤ digitsVal base l := by exact_mod_cast hge
    by_cases hbig : digitsVal base l ≤ 2 ^ 64 - 1
    · obtain ⟨usf, hok⟩ := hspec.1 hbig
      unfold pigFinish
      rw [hpu, hok]
      dsimp only
      rw [if_pos (show (!false && decide (digitsVal base l ≥ 2 ^ 63)) = true by
        simp only [Bool.not_false, Bool.true_and, decide_eq_true_eq]
        omega)]
    · have hur := hspec.2 (by omega)
      unfold pigFinish
      rw [hpu, hur]

/-- The negative `ParseInt` path on a valid digit run: the negated value
if at most `2^63`, a range error otherwise. -/
theorem pigTrue_spec (s : List Char) (base : Nat) (l : List Char)
    (hpu : parseUintGo s = pugFinish s (base, l))
    (hb : 2 ≤ base) (dig : Char → Bool)
    (hdv : ∀ c, dig c = true → ∃ d, digVal c = some d ∧ d < base)
    (hall : l.all (fun c => dig c || c = '_') = true)
    (huok : underscoreOKGo s = true) :
    (digitsVal base l ≤ 2 ^ 63 →
      pigFinish true s = IntRes.ok (-((digitsVal base l : Nat) : Int))) ∧
    (2 ^ 63 < digitsVal base l →
      pigFinish true s = IntRes.rangeE) := by
  have hspec := pugFinish_spec s base hb dig hdv l hall huok
  have e63 : (2 : Nat) ^ 63 = 9223372036854775808 := by norm_num
  have e64 : (2 : Nat) ^ 64 - 1 = 18446744073709551615 := by norm_num
  constructor
  · intro hle
    obtain ⟨usf, hok⟩ := hspec.1 (by rw [e64]; rw [e63] at hle; omega)
    unfold pigFinish
    rw [hpu, hok]
    dsimp only
    rw [if_neg (show ¬((!true && decide (digitsVal base l ≥ 2 ^ 63)) = true) by
      simp)]
    rw [if_neg (show ¬((true && decide (digitsVal base l > 2 ^ 63)) = true) by
      simp only [Bool.true_and, decide_eq_true_eq]
      omega)]
    rfl
  · intro hgt
    by_cases hbig : digitsVal base l ≤ 2 ^ 64 - 1
    · obtain ⟨usf, hok⟩ := hspec.1 hbig
      unfold pigFinish
      rw [hpu, hok]
      dsimp only
      rw [if_neg (show ¬((!true && decide (digitsVal base l ≥ 2 ^ 63)) = true) by
        simp)]
      rw [if_pos (show (true && decide (digitsVal base l > 2 ^ 63)) = true by
        simp only [Bool.true_and, decide_eq_true_eq]
        omega)]
    · have hur := hspec.2 (by omega)
      unfold pigFinish
      rw [hpu, hur]

/-- Packaging for the non-negative shapes: translate the `pigFinish`
spec through `tokVal`. -/
theorem pos_shape_wrap (s u : List Char) (base : Nat) (l : List Char)
    (htv : tokVal s = (digitsVal base l : Int))
    (hpig : parseIntGo s = pigFinish false u)
    (hspec : ((digitsVal base l : Int) < 2 ^ 63 →
        pigFinish false u = IntRes.ok ((digitsVal base l : Nat) : Int)) ∧
      ((2 : Int) ^ 63 ≤ (digitsVal base l : Int) →
        pigFinish false u = IntRes.rangeE)) :
    (-(2 ^ 63) ≤ tokVal s ∧ tokVal s < 2 ^ 63 →
      parseIntGo s = IntRes.ok (tokVal s)) ∧
    (tokVal s < -(2 ^ 63) ∨ 2 ^ 63 ≤ tokVal s →
      parseIntGo s = IntRes.rangeE) := by
  constructor
  · intro hin
    rw [hpig, htv]
    apply hspec.1
    have h2 := hin.2
    rw [htv] at h2
    exact h2
  · intro hout
    rw [hpig]
    rcases hout with hlt | hge
    · exfalso
      rw [htv] at hlt
      have h0 : (0 : Int) ≤ (digitsVal base l : Int) := Int.natCast_nonneg _
      have h63 : (0 : Int) < 2 ^ 63 := by norm_num
      omega
    · apply hspec.2
      rw [htv] at hge
      exact hge

/-- Packaging for the negative decimal shape. -/
theorem neg_shape_wrap (s u : List Char) (l : List Char)
    (htv : tokVal s = -((digitsVal 10 l : Nat) : Int))
    (hpig : parseIntGo s = pigFinish true u)
    (hspec : (digitsVal 10 l ≤ 2 ^ 63 →
        pigFinish true u = IntRes.ok (-((digitsVal 10 l : Nat) : Int))) ∧
      (2 ^ 63 < digitsVal 10 l → pigFinish true u = IntRes.rangeE)) :
    (-(2 ^ 63) ≤ tokVal s ∧ tokVal s < 2 ^ 63 →
      parseIntGo s = IntRes.ok (tokVal s)) ∧
    (tokVal s < -(2 ^ 63) ∨ 2 ^ 63 ≤ tokVal s →
      parseIntGo s = IntRes.rangeE) := by
  have e63i : ((2 : Int) ^ 63) = ((2 ^ 63 : Nat) : Int) := by norm_num
  constructor
  · intro hin
    rw [hpig, htv]
    apply hspec.1
    have h1 := hin.1
    rw [htv, e63i] at h1
    have h2 : ((digitsVal 10 l : Nat) : Int) ≤ ((2 ^ 63 : Nat) : Int) := by
      omega
    exact_mod_cast h2
  · intro hout
    rw [hpig]
    rcases hout with hlt | hge
    · apply hspec.2
      rw [htv, e63i] at hlt
      have h2 : ((2 ^ 63 : Nat) : Int) < ((digitsVal 10 l : Nat) : Int) := by
        omega
      exact_mod_cast h2
    · exfalso
      rw [htv] at hge
      have h0 : (0 : Int) ≤ ((digitsVal 10 l : Nat) : Int) :=
        Int.natCast_nonneg _
      have h63 : (0 : Int) < 2 ^ 63 := by norm_num
      omega

/-- Clause 3 of the claim for hexadecimal tokens. -/
theorem shape3_hex (d : Char) (rs : List Char) (hd : isHexadecimal d = true)
    (hall : rs.all (fun c => isHexadecimal c || c = '_') = true)
    (hus : usurround isHexadecimal false (d :: rs) = true) :
    (-(2 ^ 63) ≤ tokVal ('0' :: 'x' :: d :: rs) ∧
        tokVal ('0' :: 'x' :: d :: rs) < 2 ^ 63 →
      parseIntGo ('0' :: 'x' :: d :: rs) =
        IntRes.ok (tokVal ('0' :: 'x' :: d :: rs))) ∧
    (tokVal ('0' :: 'x' :: d :: rs) < -(2 ^ 63) ∨
        2 ^ 63 ≤ tokVal ('0' :: 'x' :: d :: rs) →
      parseIntGo ('0' :: 'x' :: d :: rs) = IntRes.rangeE) := by
  have hdu : ¬ d = '_' := by
    intro he
    rw [he] at hd
    exact absurd hd (by decide)
  have hall' : (d :: rs).all (fun c => isHexadecimal c || c = '_') = true := by
    simp only [List.all_cons, Bool.and_eq_true, Bool.or_eq_true]
    exact ⟨Or.inl hd, hall⟩
  have hus' : usurround isHexadecimal true (d :: rs) = true := by
    rw [usurround_cons_ne _ d rs true hdu]
    rw [usurround_cons_ne _ d rs false hdu] at hus
    exact hus
  have huok : underscoreOKGo ('0' :: 'x' :: d :: rs) = true := by
    have e : underscoreOKGo ('0' :: 'x' :: d :: rs) =
        uokLoop true '0' (d :: rs) := rfl
    rw [e]
    exact uok_of_usurround true isHexadecimal isHexadecimal_uokDigit
      (d :: rs) hall' hus'
  exact pos_shape_wrap ('0' :: 'x' :: d :: rs) ('0' :: 'x' :: d :: rs) 16
    (d :: rs) rfl rfl
    (pigFalse_spec ('0' :: 'x' :: d :: rs) 16 (d :: rs) rfl (by omega)
      isHexadecimal digVal_isHexadecimal hall' huok)

/-- Clause 3 of the claim for octal tokens. -/
theorem shape3_oct (d : Char) (rs : List Char) (hd : octDigit d = true)
    (hall : rs.all (fun c => octDigit c || c = '_') = true)
    (hus : usurround octDigit false (d :: rs) = true) :
    (-(2 ^ 63) ≤ tokVal ('0' :: 'o' :: d :: rs) ∧
        tokVal ('0' :: 'o' :: d :: rs) < 2 ^ 63 →
      parseIntGo ('0' :: 'o' :: d :: rs) =
        IntRes.ok (tokVal ('0' :: 'o' :: d :: rs))) ∧
    (tokVal ('0' :: 'o' :: d :: rs) < -(2 ^ 63) ∨
        2 ^ 63 ≤ tokVal ('0' :: 'o' :: d :: rs) →
      parseIntGo ('0' :: 'o' :: d :: rs) = IntRes.rangeE) := by
  have hdu : ¬ d = '_' := by
    intro he
    rw [he] at hd
    exact absurd hd (by decide)
  have hall' : (d :: rs).all (fun c => octDigit c || c = '_') = true := by
    simp only [List.all_cons, Bool.and_eq_true, Bool.or_eq_true]
    exact ⟨Or.inl hd, hall⟩
  have hus' : usurround octDigit true (d :: rs) = true := by
    rw [usurround_cons_ne _ d rs true hdu]
    rw [usurround_cons_ne _ d rs false hdu] at hus
    exact hus
  have huok : underscoreOKGo ('0' :: 'o' :: d :: rs) = true := by
    have e : underscoreOKGo ('0' :: 'o' :: d :: rs) =
        uokLoop false '0' (d :: rs) := rfl
    rw [e]
    exact uok_of_usurround false octDigit
      (fun c h => octDigit_uokDigit false c h) (d :: rs) hall' hus'
  exact pos_shape_wrap ('0' :: 'o' :: d :: rs) ('0' :: 'o' :: d :: rs) 8
    (d :: rs) rfl rfl
    (pigFalse_spec ('0' :: 'o' :: d :: rs) 8 (d :: rs) rfl (by omega)
      octDigit digVal_octDigit hall' huok)

/-- Clause 3 of the claim for binary tokens. -/
theorem shape3_bin (d : Char) (rs : List Char) (hd : binDigit d = true)
    (hall : rs.all (fun c => binDigit c || c = '_') = true)
    (hus : usurround binDigit false (d :: rs) = true) :
    (-(2 ^ 63) ≤ tokVal ('0' :: 'b' :: d :: rs) ∧
        tokVal ('0' :: 'b' :: d :: rs) < 2 ^ 63 →
      parseIntGo ('0' :: 'b' :: d :: rs) =
        IntRes.ok (tokVal ('0' :: 'b' :: d :: rs))) ∧
    (tokVal ('0' :: 'b' :: d :: rs) < -(2 ^ 63) ∨
        2 ^ 63 ≤ tokVal ('0' :: 'b' :: d :: rs) →
      parseIntGo ('0' :: 'b' :: d :: rs) = IntRes.rangeE) := by
  have hdu : ¬ d = '_' := by
    intro he
    rw [he] at hd
    exact absurd hd (by decide)
  have hall' : (d :: rs).all (fun c => binDigit c || c = '_') = true := by
    simp only [List.all_cons, Bool.and_eq_true, Bool.or_eq_true]
    exact ⟨Or.inl hd, hall⟩
  have hus' : usurround binDigit true (d :: rs) = true := by
    rw [usurround_cons_ne _ d rs true hdu]
    rw [usurround_cons_ne _ d rs false hdu] at hus
    exact hus
  have huok : underscoreOKGo ('0' :: 'b' :: d :: rs) = true := by
    have e : underscoreOKGo ('0' :: 'b' :: d :: rs) =
        uokLoop false '0' (d :: rs) := rfl
    rw [e]
    exact uok_of_usurround false binDigit
      (fun c h => binDigit_uokDigit false c h) (d :: rs) hall' hus'
  exact pos_shape_wrap ('0' :: 'b' :: d :: rs) ('0' :: 'b' :: d :: rs) 2
    (d :: rs) rfl rfl
    (pigFalse_spec ('0' :: 'b' :: d :: rs) 2 (d :: rs) rfl (by omega)
      binDigit digVal_binDigit hall' huok)

/-- Shared facts for the decimal digit part `d :: rs` with `d ≠ 0`. -/
theorem dec_core (d : Char) (rs : List Char) (hd : isDigit d = true)
    (hd0 : ¬ d = '0')
    (hall : rs.all (fun c => isDigit c || c = '_') = true)
    (hus : usurround isDigit false (d :: rs) = true) :
    parseUintGo (d :: rs) = pugFinish (d :: rs) (10, d :: rs) ∧
    underscoreOKGo (d :: rs) = true ∧
    (d :: rs).all (fun c => isDigit c || c = '_') = true := by
  have hdu : ¬ d = '_' := isDigit_ne d '_' hd (by decide)
  have hdp : ¬ d = '+' := isDigit_ne d '+' hd (by decide)
  have hdm : ¬ d = '-' := isDigit_ne d '-' hd (by decide)
  have hsig : ¬(d = '+' ∨ d = '-') := fun h => h.elim hdp hdm
  have hall' : (d :: rs).all (fun c => isDigit c || c = '_') = true := by
    simp only [List.all_cons, Bool.and_eq_true, Bool.or_eq_true]
    exact ⟨Or.inl hd, hall⟩
  have hus' : usurround isDigit true (d :: rs) = true := by
    rw [usurround_cons_ne _ d rs true hdu]
    rw [usurround_cons_ne _ d rs false hdu] at hus
    exact hus
  refine ⟨?_, ?_, hall'⟩
  · unfold parseUintGo
    dsimp only
    rw [if_neg hd0]
  · have e : underscoreOKGo (d :: rs) = uokBody (d :: rs) := by
      unfold underscoreOKGo
      dsimp only
      rw [if_neg hsig]
    rw [e]
    rcases rs with _ | ⟨c1, r⟩
    · have e2 : uokBody [d] = uokLoop false '^' [d] := rfl
      rw [e2, uokLoop_cons_digit false '^' d [] (isDigit_uokDigit false d hd)]
      rfl
    · have e2 : uokBody (d :: c1 :: r) = uokLoop false '^' (d :: c1 :: r) := by
        simp only [uokBody]
        rw [if_neg (show ¬(d = '0' ∧ (c1 = 'b' ∨ c1 = 'B' ∨ c1 = 'o' ∨
              c1 = 'O' ∨ c1 = 'x' ∨ c1 = 'X')) from fun hh => hd0 hh.1)]
      rw [e2,
        uokLoop_cons_digit false '^' d (c1 :: r) (isDigit_uokDigit false d hd)]
      have hustail : usurround isDigit true (c1 :: r) = true := by
        rw [usurround_cons_ne _ d (c1 :: r) true hdu, hd] at hus'
        exact hus'
      exact uok_of_usurround false isDigit
        (fun c h => isDigit_uokDigit false c h) (c1 :: r) hall hustail

/-- Clause 3 of the claim for unsigned decimal tokens (other than 0). -/
theorem shape3_dec (d : Char) (rs : List Char) (hd : isDigit d = true)
    (hd0 : ¬ d = '0')
    (hall : rs.all (fun c => isDigit c || c = '_') = true)
    (hus : usurround isDigit false (d :: rs) = true) :
    (-(2 ^ 63) ≤ tokVal (d :: rs) ∧ tokVal (d :: rs) < 2 ^ 63 →
      parseIntGo (d :: rs) = IntRes.ok (tokVal (d :: rs))) ∧
    (tokVal (d :: rs) < -(2 ^ 63) ∨ 2 ^ 63 ≤ tokVal (d :: rs) →
      parseIntGo (d :: rs) = IntRes.rangeE) := by
  obtain ⟨hpu, huok, hall'⟩ := dec_core d rs hd hd0 hall hus
  have hdp : ¬ d = '+' := isDigit_ne d '+' hd (by decide)
  have hdm : ¬ d = '-' := isDigit_ne d '-' hd (by decide)
  have hsig : ¬(d = '+' ∨ d = '-') := fun h => h.elim hdp hdm
  have hpig : parseIntGo (d :: rs) = pigFinish false (d :: rs) := by
    unfold parseIntGo
    dsimp only
    rw [if_neg hsig, decide_eq_false hdm]
  exact pos_shape_wrap (d :: rs) (d :: rs) 10 (d :: rs)
    (tokVal_dec d rs hd hd0) hpig
    (pigFalse_spec (d :: rs) 10 (d :: rs) hpu (by omega) isDigit
      digVal_isDigit hall' huok)

/-- Clause 3 of the claim for `+`-signed decimal tokens (other than +0). -/
theorem shape3_plus (d : Char) (rs : List Char) (hd : isDigit d = true)
    (hd0 : ¬ d = '0')
    (hall : rs.all (fun c => isDigit c || c = '_') = true)
    (hus : usurround isDigit false (d :: rs) = true) :
    (-(2 ^ 63) ≤ tokVal ('+' :: d :: rs) ∧ tokVal ('+' :: d :: rs) < 2 ^ 63 →
      parseIntGo ('+' :: d :: rs) = IntRes.ok (tokVal ('+' :: d :: rs))) ∧
    (tokVal ('+' :: d :: rs) < -(2 ^ 63) ∨ 2 ^ 63 ≤ tokVal ('+' :: d :: rs) →
      parseIntGo ('+' :: d :: rs) = IntRes.rangeE) := by
  obtain ⟨hpu, huok, hall'⟩ := dec_core d rs hd hd0 hall hus
  exact pos_shape_wrap ('+' :: d :: rs) (d :: rs) 10 (d :: rs) rfl rfl
    (pigFalse_spec (d :: rs) 10 (d :: rs) hpu (by omega) isDigit
      digVal_isDigit hall' huok)

/-- Clause 3 of the claim for `-`-signed decimal tokens (other than -0). -/
theorem shape3_minus (d : Char) (rs : List Char) (hd : isDigit d = true)
    (hd0 : ¬ d = '0')
    (hall : rs.all (fun c => isDigit c || c = '_') = true)
    (hus : usurround isDigit false (d :: rs) = true) :
    (-(2 ^ 63) ≤ tokVal ('-' :: d :: rs) ∧ tokVal ('-' :: d :: rs) < 2 ^ 63 →
      parseIntGo ('-' :: d :: rs) = IntRes.ok (tokVal ('-' :: d :: rs))) ∧
    (tokVal ('-' :: d :: rs) < -(2 ^ 63) ∨ 2 ^ 63 ≤ tokVal ('-' :: d :: rs) →
      parseIntGo ('-' :: d :: rs) = IntRes.rangeE) := by
  obtain ⟨hpu, huok, hall'⟩ := dec_core d rs hd hd0 hall hus
  exact neg_shape_wrap ('-' :: d :: rs) (d :: rs) (d :: rs) rfl rfl
    (pigTrue_spec (d :: rs) 10 (d :: rs) hpu (by omega) isDigit
      digVal_isDigit hall' huok)

theorem slip_head_digit (c1 : Char) (r : List Char)
    (hall : (c1 :: r).all (fun c => isDigit c || c = '_') = true)
    (hslip : noOctalSlip ('0' :: c1 :: r) = true) : isDigit c1 = true := by
  simp only [List.all_cons, Bool.and_eq_true, Bool.or_eq_true] at hall
  rcases hall.1 with h | h
  · exact h
  · exfalso
    have hc1u : c1 = '_' := by simpa [decide_eq_true_eq] using h
    subst hc1u
    simp [noOctalSlip] at hslip

theorem lzTok_zero_digit (c1 : Char) (r : List Char)
    (hc1 : isDigit c1 = true) : leadZeroTok ('0' :: c1 :: r) = true := by
  have hx := isDigit_ne c1 'x' hc1 (by decide)
  have ho := isDigit_ne c1 'o' hc1 (by decide)
  have hb := isDigit_ne c1 'b' hc1 (by decide)
  simp [leadZeroTok, hx, ho, hb]

/-- Reduce the three clauses of the claim to the two check equalities
and the `ParseInt` behaviour. -/
theorem convInteger_split (s : List Char)
    (h1 : numUnderscoresOK s = tokUnderscoresOK s)
    (h2 : numHasLeadingZero s = leadZeroTok s)
    (h3 : tokUnderscoresOK s = true → leadZeroTok s = false →
      ((-(2 ^ 63) ≤ tokVal s ∧ tokVal s < 2 ^ 63 →
          parseIntGo s = IntRes.ok (tokVal s)) ∧
       (tokVal s < -(2 ^ 63) ∨ 2 ^ 63 ≤ tokVal s →
          parseIntGo s = IntRes.rangeE))) :
    (tokUnderscoresOK s = false →
      convInteger s = ConvRes.err (underscoreErrMsg s)) ∧
    (leadZeroTok s = true → tokUnderscoresOK s = true →
      convInteger s = ConvRes.err (leadZeroErrMsg s)) ∧
    (tokUnderscoresOK s = true → leadZeroTok s = false →
      ((-(2 ^ 63) ≤ tokVal s ∧ tokVal s < 2 ^ 63 →
          convInteger s = ConvRes.ok (tokVal s)) ∧
       (tokVal s < -(2 ^ 63) ∨ 2 ^ 63 ≤ tokVal s →
          convInteger s = ConvRes.err (rangeErrMsg s)))) := by
  refine ⟨?_, ?_, ?_⟩
  · intro hu
    unfold convInteger
    rw [h1, hu]
    simp
  · intro hlz hu
    unfold convInteger
    rw [h1, hu, h2, hlz]
    simp
  · intro hu hlz
    have h3' := h3 hu hlz
    constructor
    · intro hin
      have hres := h3'.1 hin
      unfold convInteger
      rw [h1, hu, h2, hlz, hres]
      simp
    · intro hout
      have hres := h3'.2 hout
      unfold convInteger
      rw [h1, hu, h2, hlz, hres]
      simp

/-- Claim C3 (amended): for every integer token (optionally signed
decimal, or `0x`/`0o`/`0b` with a digit-headed run, excluding the
decimal `0_` shape that Go reparses as octal), the conversion fails with
the underscore `ParseError` when an underscore is not surrounded by
digits of the declared base, fails with the leading-zero `ParseError`
when a nonzero number starts with `0`, and otherwise parses the token in
its declared base into a signed 64-bit integer, values outside
`[-2^63, 2^63)` failing with the message "Integer '%s' is out of the
range of 64-bit signed integers." (not the claimed "N is out of range
for int64"). -/
theorem claim_C3_integer_conversion_amended (s : List Char)
    (htok : intToken s) (hslip : noOctalSlip s = true) :
    (tokUnderscoresOK s = false →
      convInteger s = ConvRes.err (underscoreErrMsg s)) ∧
    (leadZeroTok s = true → tokUnderscoresOK s = true →
      convInteger s = ConvRes.err (leadZeroErrMsg s)) ∧
    (tokUnderscoresOK s = true → leadZeroTok s = false →
      ((-(2 ^ 63) ≤ tokVal s ∧ tokVal s < 2 ^ 63 →
          convInteger s = ConvRes.ok (tokVal s)) ∧
       (tokVal s < -(2 ^ 63) ∨ 2 ^ 63 ≤ tokVal s →
          convInteger s = ConvRes.err (rangeErrMsg s)))) := by
  rcases htok with ⟨sgn, run, hsgn, hs, hrun⟩ | ⟨run, hs, hrun⟩ |
    ⟨run, hs, hrun⟩ | ⟨run, hs, hrun⟩
  · -- decimal
    obtain ⟨d, rs, hre, hd, hall⟩ := runShape_cases isDigit run hrun
    subst hre
    rcases hsgn with h0 | hp | hm
    · subst h0
      simp only [List.nil_append] at hs
      subst hs
      apply convInteger_split
      · exact nuo_tok_dec d rs hd hall hslip
      · exact lz_dec d rs hd hall hslip
      · intro hu hlz
        by_cases hd0 : d = '0'
        · subst hd0
          rcases rs with _ | ⟨c1, r⟩
          · constructor
            · intro _
              decide
            · intro hout
              exfalso
              rcases hout with h | h
              · exact absurd h (by decide)
              · exact absurd h (by decide)
          · exfalso
            have hc1 := slip_head_digit c1 r hall hslip
            rw [lzTok_zero_digit c1 r hc1] at hlz
            cases hlz
        · have hus : usurround isDigit false (d :: rs) = true := by
            rw [← tokUnderscoresOK_dec d rs hd hall hslip]
            exact hu
          exact shape3_dec d rs hd hd0 hall hus
    · subst hp
      simp only [List.singleton_append] at hs
      subst hs
      apply convInteger_split
      · exact nuo_tok_sign '+' d rs (Or.inl rfl) hd hall
      · exact lz_sign '+' d rs (Or.inl rfl) hd
      · intro hu hlz
        have hus : usurround isDigit false (d :: rs) = true := by
          rw [tokUnderscoresOK_sign '+' d rs (Or.inl rfl) hd] at hu
          exact hu
        by_cases hd0 : d = '0'
        · subst hd0
          rcases rs with _ | ⟨c1, r⟩
          · constructor
            · intro _
              decide
            · intro hout
              exfalso
              rcases hout with h | h
              · exact absurd h (by decide)
              · exact absurd h (by decide)
          · exfalso
            rw [show leadZeroTok ('+' :: '0' :: c1 :: r) = true by
              simp [leadZeroTok]] at hlz
            cases hlz
        · exact shape3_plus d rs hd hd0 hall hus
    · subst hm
      simp only [List.singleton_append] at hs
      subst hs
      apply convInteger_split
      · exact nuo_tok_sign '-' d rs (Or.inr rfl) hd hall
      · exact lz_sign '-' d rs (Or.inr rfl) hd
      · intro hu hlz
        have hus : usurround isDigit false (d :: rs) = true := by
          rw [tokUnderscoresOK_sign '-' d rs (Or.inr rfl) hd] at hu
          exact hu
        by_cases hd0 : d = '0'
        · subst hd0
          rcases rs with _ | ⟨c1, r⟩
          · constructor
            · intro _
              decide
            · intro hout
              exfalso
              rcases hout with h | h
              · exact absurd h (by decide)
              · exact absurd h (by decide)
          · exfalso
            rw [show leadZeroTok ('-' :: '0' :: c1 :: r) = true by
              simp [leadZeroTok]] at hlz
            cases hlz
        · exact shape3_minus d rs hd hd0 hall hus
  · -- hexadecimal
    obtain ⟨d, rs, hre, hd, hall⟩ := runShape_cases isHexadecimal run hrun
    subst hre
    subst hs
    apply convInteger_split
    · exact nuo_tok_hex d rs hd hall
    · rfl
    · intro hu hlz
      have hus : usurround isHexadecimal false (d :: rs) = true := by
        have e2 : tokUnderscoresOK ('0' :: 'x' :: d :: rs) =
            usurround isHexadecimal false (d :: rs) := rfl
        rw [e2] at hu
        exact hu
      exact shape3_hex d rs hd hall hus
  · -- octal
    obtain ⟨d, rs, hre, hd, hall⟩ := runShape_cases octDigit run hrun
    subst hre
    subst hs
    apply convInteger_split
    · exact nuo_tok_oct d rs hd hall
    · rfl
    · intro hu hlz
      have hus : usurround octDigit false (d :: rs) = true := by
        have e2 : tokUnderscoresOK ('0' :: 'o' :: d :: rs) =
            usurround octDigit false (d :: rs) := rfl
        rw [e2] at hu
        exact hu
      exact shape3_oct d rs hd hall hus
  · -- binary
    obtain ⟨d, rs, hre, hd, hall⟩ := runShape_cases binDigit run hrun
    subst hre
    subst hs
    apply convInteger_split
    · exact nuo_tok_bin d rs hd hall
    · rfl
    · intro hu hlz
      have hus : usurround binDigit false (d :: rs) = true := by
        have e2 : tokUnderscoresOK ('0' :: 'b' :: d :: rs) =
            usurround binDigit false (d :: rs) := rfl
        rw [e2] at hu
        exact hu
      exact shape3_bin d rs hd hall hus

/-- Claim C3 witness: the token `1_000` is in the claim's domain, its
underscore placement is valid, it has no leading zero, and it converts
to the integer 1000. -/
theorem claim_C3_witness :
    intToken "1_000".data ∧ noOctalSlip "1_000".data = true ∧
    tokUnderscoresOK "1_000".data = true ∧
    leadZeroTok "1_000".data = false ∧
    convInteger "1_000".data = ConvRes.ok 1000 := by
  refine ⟨?_, by decide, by decide, by decide, ?_⟩
  · exact Or.inl ⟨[], "1_000".data, Or.inl rfl, rfl, by decide⟩
  · have h := claim_C3_integer_conversion_amended "1_000".data
      (Or.inl ⟨[], "1_000".data, Or.inl rfl, rfl, by decide⟩) (by decide)
    have h2 := (h.2.2 (by decide) (by decide)).1 (by decide)
    rw [show tokVal "1_000".data = 1000 by decide] at h2
    exact h2

/-- Claim C3 (counterexample): the value 2^63 is out of range and the
parser reports "Integer '9223372036854775808' is out of the range of
64-bit signed integers.", not the claimed
"9223372036854775808 is out of range for int64". -/
theorem claim_C3_counterexample :
    convInteger "9223372036854775808".data =
      ConvRes.err (rangeErrMsg "9223372036854775808".data) ∧
    rangeErrMsg "9223372036854775808".data ≠
      "9223372036854775808 is out of range for int64" := by
  constructor
  · decide
  · decide

/- ### C1: the encode/decode round trip through multiline basic strings -/

/-- One lowercase hex digit. -/
def hexDigitCh (n : Nat) : Char :=
  if n < 10 then Char.ofNat ('0'.toNat + n) else Char.ofNat ('a'.toNat + n - 10)

/-- `dblQuotedReplacer` from the encoder: every pattern is a single
character, so the replacer is a character map — quote and backslash gain
a backslash, the short control escapes are used for 0x08/0x09/0x0a/0x0c/
0x0d, every other control character and 0x7f becomes a `\u00XX` escape. -/
def dblQuotedReplacer (c : Char) : List Char :=
  if c = '"' then ['\\', '"']
  else if c = '\\' then ['\\', '\\']
  else if c = Char.ofNat 0x08 then ['\\', 'b']
  else if c = Char.ofNat 0x09 then ['\\', 't']
  else if c = Char.ofNat 0x0a then ['\\', 'n']
  else if c = Char.ofNat 0x0c then ['\\', 'f']
  else if c = Char.ofNat 0x0d then ['\\', 'r']
  else if c.toNat < 0x20 ∨ c.toNat = 0x7f then
    ['\\', 'u', '0', '0', hexDigitCh (c.toNat / 16), hexDigitCh (c.toNat % 16)]
  else [c]

/-- `strings.ReplaceAll(s, "\\n", "\n")` from the encoder's multiline
path: replace each backslash-n pair by a newline, scanning left to
right. -/
def replaceBackslashN : List Char → List Char
  | '\\' :: 'n' :: rest => '\n' :: replaceBackslashN rest
  | c :: rest => c :: replaceBackslashN rest
  | [] => []

/-- The text `writeQuoted` puts between the `"""` delimiters for a
non-literal multiline string. -/
def writeQuotedMultilineInner (s : List Char) : List Char :=
  replaceBackslashN ((s.map dblQuotedReplacer).flatten)

def trimRightChars (cs : List Char) (l : List Char) : List Char :=
  (l.reverse.dropWhile (fun c => cs.contains c)).reverse

def trimLeftChars (cs : List Char) (l : List Char) : List Char :=
  l.dropWhile (fun c => cs.contains c)

/-- `stripFirstNewline` from the parser. -/
def stripFirstNewline (s : List Char) : List Char :=
  match s with
  | '\n' :: rest => rest
  | '\r' :: '\n' :: rest => rest
  | _ => s

/-- Whether the trailing backslash run of the right-trimmed line has
even length (Go's `escBS` after its toggle loop). -/
def escBSeven (line : List Char) : Bool :=
  decide ((line.reverse.takeWhile (fun c => c = '\\')).length % 2 = 0)

/-- The loop of `stripEscapedNewlines`: `escNL` tracks whether the last
backslash-ended line was an escaped newline, `trimNext` models the
in-place `TrimLeft` of the following slice element. -/
def senAux (escNL trimNext : Bool) : List (List Char) → List (List Char)
  | [] => []
  | line0 :: rest =>
    let line00 := if trimNext then trimLeftChars [' ', '\t', '\r'] line0
      else line0
    let line := trimRightChars [' ', '\t', '\r'] line00
    if line.getLast? ≠ some '\\' then
      (trimRightChars ['\r'] line00 ++
        if !escNL && !rest.isEmpty then ['\n'] else []) ::
        senAux escNL false rest
    else
      let line1 := if escNL then trimLeftChars [' ', '\t', '\r'] line
        else line
      if escBSeven line then (line00 ++ ['\n']) :: senAux false false rest
      else line1.dropLast :: senAux true true rest

/-- `stripEscapedNewlines` from the parser: split on newlines, process
lines, join with the empty separator. -/
def stripEscapedNewlines (s : List Char) : List Char :=
  (senAux false false (s.splitOn '\n')).flatten

/-- Hex value of a digit run, failing on non-hex characters (Go's
`ParseUint(s, 16, 32)` under the lexer's 4/8-length guarantee). -/
def hexNatAux (acc : Nat) : List Char → Option Nat
  | [] => some acc
  | c :: rest =>
    match digVal c with
    | some d => if d < 16 then hexNatAux (acc * 16 + d) rest else none
    | none => none

/-- `asciiEscapeToUnicode` from the parser: parse the hex digits (a
failure is `p.bug`), reject surrogates and out-of-range code points with
a `ParseError`. -/
def asciiEscapeToUnicode (bs : List Char) : PRes Nat :=
  match hexNatAux 0 bs with
  | none => PRes.crash
  | some n =>
    if (0xD800 ≤ n ∧ n < 0xE000) ∨ n > 0x10FFFF then
      PRes.perr ("Escaped character '\\u" ++ String.mk bs ++
        "' is not valid UTF-8.")
    else PRes.ok n

/-- `replaceEscapes` from the parser: decode the backslash escapes; an
unknown escape or an escape at the end of the string is `p.bug`. -/
def replaceEscapes : List Char → PRes (List Char)
  | [] => PRes.ok []
  | c :: rest =>
    if c = '\\' then
      match rest with
      | [] => PRes.crash
      | e :: rest2 =>
        if e = 'b' then
          (replaceEscapes rest2).bind (fun l => PRes.ok (Char.ofNat 0x08 :: l))
        else if e = 't' then
          (replaceEscapes rest2).bind (fun l => PRes.ok (Char.ofNat 0x09 :: l))
        else if e = 'n' then
          (replaceEscapes rest2).bind (fun l => PRes.ok (Char.ofNat 0x0a :: l))
        else if e = 'f' then
          (replaceEscapes rest2).bind (fun l => PRes.ok (Char.ofNat 0x0c :: l))
        else if e = 'r' then
          (replaceEscapes rest2).bind (fun l => PRes.ok (Char.ofNat 0x0d :: l))
        else if e = '"' then
          (replaceEscapes rest2).bind (fun l => PRes.ok (Char.ofNat 0x22 :: l))
        else if e = '\\' then
          (replaceEscapes rest2).bind (fun l => PRes.ok (Char.ofNat 0x5c :: l))
        else if e = 'u' then
          match rest2 with
          | h1 :: h2 :: h3 :: h4 :: r3 =>
            (asciiEscapeToUnicode [h1, h2, h3, h4]).bind (fun n =>
              (replaceEscapes r3).bind (fun l => PRes.ok (Char.ofNat n :: l)))
          | _ => PRes.crash
        else if e = 'U' then
          match rest2 with
          | h1 :: h2 :: h3 :: h4 :: h5 :: h6 :: h7 :: h8 :: r3 =>
            (asciiEscapeToUnicode [h1, h2, h3, h4, h5, h6, h7, h8]).bind
              (fun n =>
                (replaceEscapes r3).bind (fun l => PRes.ok (Char.ofNat n :: l)))
          | _ => PRes.crash
        else PRes.crash
    else (replaceEscapes rest).bind (fun l => PRes.ok (c :: l))

/-- The `itemMultilineString` case of `parser.value`:
`p.replaceEscapes(stripFirstNewline(stripEscapedNewlines(it.val)))`. -/
def parseMultilineBasic (val : List Char) : PRes (List Char) :=
  replaceEscapes (stripFirstNewline (stripEscapedNewlines val))

/-- Claim C1 (code_bug): the encode/decode round trip fails on string
values containing a literal backslash followed by `n`. The four-character
value `a`,`\`,`n`,`b` is produced by parse from the multiline basic
string with inner text `a\\nb`; encoding it with a multiline string hint
first escapes the backslash (`a\\nb`) and then `writeQuoted`'s
`strings.ReplaceAll(…, "\\n", "\n")` rewrites the escaped backslash
followed by `n` into a raw newline, emitting inner text
`a`,`\`,newline,`b`; re-parsing treats that trailing backslash as an
escaped newline (line continuation) and yields `ab`, not the original
value. -/
theorem claim_C1_roundtrip_fails :
    parseMultilineBasic ['a', '\\', '\\', 'n', 'b'] =
      PRes.ok ['a', '\\', 'n', 'b'] ∧
    writeQuotedMultilineInner ['a', '\\', 'n', 'b'] =
      ['a', '\\', '\n', 'b'] ∧
    parseMultilineBasic (writeQuotedMultilineInner ['a', '\\', 'n', 'b']) =
      PRes.ok ['a', 'b'] ∧
    ¬ (['a', 'b'] : List Char) = ['a', '\\', 'n', 'b'] := by
  refine ⟨by decide, by decide, by decide, by decide⟩
